import Mathlib

/-! Shallow embedding of the dependency-injection engine in `dependency/core.py`.

A Python type is modelled by its name (a `String`); `typing.NewType('ParamName', str)`
is the marker annotation `Ann.pname`.  A Python function is modelled by its
introspectable signature `FuncSig` (an identity plus its ordered, annotated
parameters); the runtime behaviour of functions is supplied separately to the
executor as an `Impl` mapping function identities to partial functions on
keyword-argument lists.  `create_steps` recurses through the provider registry,
so the embedding carries an explicit fuel parameter; the Python original would
not terminate exactly where the fuel model returns `BErr.outOfFuel`.
-/

namespace Dependency

/-- A parameter annotation: either the `ParamName` marker type or an ordinary
dependency type, identified by its class name. -/
inductive Ann where
  | pname : Ann
  | ty : String → Ann
deriving DecidableEq

/-- One parameter of an introspected signature: its name and its annotation. -/
structure Param where
  name : String
  ann : Ann
deriving DecidableEq

/-- An introspectable Python function: an identity (used by the executor to
find its behaviour) and its ordered parameters. -/
structure FuncSig where
  fid : Nat
  params : List Param
deriving DecidableEq

/-- Whether an annotation is the `ParamName` marker. -/
def isPN : Ann → Bool
  | .pname => true
  | .ty _ => false

/-- Model of `provides_parameterized_type` from core.py: a provider is
name-parameterized when some parameter is annotated `ParamName`. -/
def provides_parameterized_type (f : FuncSig) : Bool :=
  f.params.any (fun p => isPN p.ann)

/-- Python's per-character `str.lower()` on one character. -/
def lowerChar (ch : Char) : Char :=
  if 'A' ≤ ch ∧ ch ≤ 'Z' then Char.ofNat (ch.toNat + 32) else ch

/-- Python's `str.lower()` (`cls.__name__.lower()` in `get_key`). -/
def strLower (s : String) : String := ⟨s.data.map lowerChar⟩

/-- Model of `get_key` from core.py.  `cls = none` (Python `None`) maps to the empty
key; a name-parameterized class with a present parameter name gets the name
as a `:`-suffix; otherwise the key is the lowercased class name. -/
def get_key (cls : Option String) (param_name : Option String) (P : List String) : String :=
  match cls with
  | none => ""
  | some c =>
    let key := strLower c
    match param_name with
    | some n => if c ∈ P then key ++ ":" ++ n else key
    | none => key

/-- One entry of a built plan, mirroring the `Step` named tuple of core.py. -/
structure Step where
  func : FuncSig
  input_keys : List (String × String)
  input_types : List (String × Ann)
  output_key : String
  output_type : Option String
  param_names : Option (List (String × Option String))
  is_context_manager : Bool
deriving DecidableEq

/-- The build-time environment: the provider registry (type name to provider
function), the externally-required state declaration (state name to type
name), and the set of type names whose values support `__enter__`/`__exit__`
(used by `is_context_manager`). -/
structure Ctx where
  providers : List (String × FuncSig)
  required_state : List (String × String)
  cms : List String
deriving DecidableEq

/-- Model of `is_context_manager` from core.py, decided on the (optional) output type. -/
def is_context_manager (c : Ctx) : Option String → Bool
  | none => false
  | some t => t ∈ c.cms

/-- The set of name-parameterized provided types, computed once per registry
as in `Injector.inject`. -/
def parameterized_types (c : Ctx) : List String :=
  (c.providers.filter (fun tf => provides_parameterized_type tf.2)).map Prod.fst

/-- The key a (non-`ParamName`) parameter resolves to. -/
def paramKey (P : List String) (p : Param) : String :=
  match p.ann with
  | .pname => ""
  | .ty t => get_key (some t) (some p.name) P

/-- Model of `create_step` from core.py: the information needed to run one function as
a step, given the candidate output type and logical parameter name. -/
def create_step (c : Ctx) (P : List String) (f : FuncSig) (pt : Option String)
    (pn : Option String) : Step :=
  { func := f
  , input_keys := (f.params.filter (fun p => !(isPN p.ann))).map (fun p => (p.name, paramKey P p))
  , input_types := f.params.map (fun p => (p.name, p.ann))
  , output_key := get_key pt pn P
  , output_type := pt
  , param_names :=
      if (f.params.filter (fun p => isPN p.ann)) = [] then none
      else some ((f.params.filter (fun p => isPN p.ann)).map (fun p => (p.name, pn)))
  , is_context_manager := is_context_manager c pt }

/-- Build-time failure: the `assert param.annotation in providers` failure of
`create_steps` (the spec's `UnresolvedDependency`), or fuel exhaustion
(where the Python original would recurse forever). -/
inductive BErr where
  | unresolvedDependency (t : String)
  | outOfFuel
deriving DecidableEq

/-- The `for param in params` loop of `create_steps`: resolve each parameter
of the current function, skipping `ParamName` markers and keys already seen,
accumulating emitted steps and extending the seen-key set with each recursive
batch's output keys.  `recur` is the recursive `create_steps` call. -/
def resolveLoop (recur : FuncSig → String → String → List String → Except BErr (List Step))
    (providers : List (String × FuncSig)) (P : List String) :
    List Param → List Step → List String → Except BErr (List Step × List String)
  | [], steps, seen => .ok (steps, seen)
  | p :: rest, steps, seen =>
    match p.ann with
    | .pname => resolveLoop recur providers P rest steps seen
    | .ty t =>
      if get_key (some t) (some p.name) P ∈ seen then
        resolveLoop recur providers P rest steps seen
      else
        match List.lookup t providers with
        | none => .error (.unresolvedDependency t)
        | some g =>
          match recur g t p.name seen with
          | .error e => .error e
          | .ok psteps =>
            resolveLoop recur providers P rest (steps ++ psteps)
              (seen ++ psteps.map Step.output_key)

/-- Model of `create_steps` from core.py: all dependent steps required to run `f`,
ending with `f`'s own step.  Fuel bounds the recursion depth. -/
def create_steps (c : Ctx) (P : List String) :
    Nat → FuncSig → Option String → Option String → List String → Except BErr (List Step)
  | 0, _, _, _, _ => .error .outOfFuel
  | fuel+1, f, pt, pn, seen =>
    match resolveLoop (fun g t n s => create_steps c P fuel g (some t) (some n) s)
        c.providers P f.params [] seen with
    | .error e => .error e
    | .ok (steps, _) => .ok (steps ++ [create_step c P f pt pn])

/-- A built plan, mirroring `InjectedFunction`: the ordered steps plus the
mapping from external-input names to their dependency keys. -/
structure InjectedFunction where
  steps : List Step
  state_key_mapping : List (String × String)
deriving DecidableEq

/-- Model of `Injector.inject` from core.py: compute the parameterized types, seed the
seen set with the keys of the externally-required types, resolve, and wrap. -/
def inject (c : Ctx) (fuel : Nat) (f : FuncSig) : Except BErr InjectedFunction :=
  let P := parameterized_types c
  let seen := c.required_state.map (fun nt => get_key (some nt.2) none [])
  match create_steps c P fuel f none none seen with
  | .error e => .error e
  | .ok steps =>
    .ok ⟨steps, c.required_state.map (fun nt => (nt.1, get_key (some nt.2) none []))⟩

/-- A Python runtime value: a string, a dict (an insertion-ordered mapping
where the most recent binding for a key is found first), or `None`. -/
inductive Val where
  | vstr : String → Val
  | vdict : List (String × Val) → Val
  | vnone : Val

/-- The runtime behaviour of the functions: a function identity plus a
keyword-argument list to an optional result (`none` models a raised
exception, the spec's `ProviderFailure`). -/
def Impl := Nat → List (String × Val) → Option Val

/-- Run-time failure of `InjectedFunction.__call__`: a `KeyError` while
gathering a step's inputs (the spec's `MissingState`), a provider raising
(the spec's `ProviderFailure`), or a `KeyError` while remapping an external
input name not declared in `required_state`. -/
inductive RunErr where
  | missingState (key : String)
  | providerFailure (fid : Nat)
  | unknownStateName (name : String)
deriving DecidableEq

/-- Observable events of one run: a provider invocation, the acquisition of a
scoped resource (the `__enter__` performed by `ExitStack.enter_context`),
and its release (`__exit__`).  Resources are identified by the position of
the step that produced them. -/
inductive Ev where
  | call (fid : Nat)
  | acquire (idx : Nat)
  | release (idx : Nat)
deriving DecidableEq

/-- The value a `ParamName`-annotated parameter is bound to at run time: the
recorded logical name, or `None` when none was recorded. -/
def optNameVal : Option String → Val
  | some s => .vstr s
  | none => .vnone

/-- The `kwargs = { argname: state[state_key] ... }` comprehension: look each
input key up in the execution state, failing with the first absent key. -/
def lookupKeys (state : List (String × Val)) : List (String × String) → Except String (List (String × Val))
  | [] => .ok []
  | (a, k) :: rest =>
    match List.lookup k state with
    | none => .error k
    | some v =>
      match lookupKeys state rest with
      | .error e => .error e
      | .ok kws => .ok ((a, v) :: kws)

/-- The full keyword-argument list passed to a step's function: the state
lookups, updated with the recorded `ParamName` bindings. -/
def buildKwargs (state : List (String × Val)) (s : Step) : Except String (List (String × Val)) :=
  match lookupKeys state s.input_keys with
  | .error k => .error k
  | .ok kws =>
    .ok (kws ++ (match s.param_names with
      | none => []
      | some m => m.map (fun bn => (bn.1, optNameVal bn.2))))

/-- The `for step in self.steps` loop of `InjectedFunction.__call__`, inside
the `ExitStack`.  `acq` holds the indices of acquired resources, most recent
first; on completion or on any failure the stack releases them in that
order.  Returns the event trace and the result. -/
def execSteps (impl : Impl) :
    List (Nat × Step) → List (String × Val) → Val → List Ev → List Nat →
    List Ev × Except RunErr Val
  | [], _, ret, tr, acq => (tr ++ acq.map Ev.release, .ok ret)
  | (i, s) :: rest, state, _, tr, acq =>
    match buildKwargs state s with
    | .error k => (tr ++ acq.map Ev.release, .error (.missingState k))
    | .ok kws =>
      match impl s.func.fid kws with
      | none => (tr ++ [Ev.call s.func.fid] ++ acq.map Ev.release, .error (.providerFailure s.func.fid))
      | some v =>
        if s.is_context_manager then
          execSteps impl rest ((s.output_key, v) :: state) v
            (tr ++ [Ev.call s.func.fid, Ev.acquire i]) (i :: acq)
        else
          execSteps impl rest ((s.output_key, v) :: state) v
            (tr ++ [Ev.call s.func.fid]) acq

/-- The `state = { self.state_key_mapping[key]: value ... }` remapping of the
given external inputs, failing at the first name absent from the mapping;
later items override earlier ones, so they are placed in front. -/
def remapState (mapping : List (String × String)) : List (String × Val) → Except RunErr (List (String × Val))
  | [] => .ok []
  | (n, v) :: rest =>
    match List.lookup n mapping with
    | none => .error (.unknownStateName n)
    | some k =>
      match remapState mapping rest with
      | .error e => .error e
      | .ok m => .ok (m ++ [(k, v)])

/-- Model of `InjectedFunction.__call__`: remap the external inputs (if given), then
run the steps under an `ExitStack`, returning the event trace and result. -/
def callFn (impl : Impl) (inj : InjectedFunction) (state : Option (List (String × Val))) :
    List Ev × Except RunErr Val :=
  match state with
  | none => execSteps impl inj.steps.enum [] .vnone [] []
  | some st =>
    match remapState inj.state_key_mapping st with
    | .error e => ([], .error e)
    | .ok st' => execSteps impl inj.steps.enum st' .vnone [] []

/-! Section: Build-time soundness: shape, topological order, freshness. -/

/-- Topological well-formedness of a step list over an initial key set:
every input key of every step is already in the set or was produced by an
earlier step. -/
def StepsTopo (seen : List String) : List Step → Prop
  | [] => True
  | s :: rest => (∀ ak ∈ s.input_keys, ak.2 ∈ seen) ∧ StepsTopo (seen ++ [s.output_key]) rest

theorem stepsTopo_append (xs ys : List Step) (seen : List String) :
    StepsTopo seen (xs ++ ys) ↔
      StepsTopo seen xs ∧ StepsTopo (seen ++ xs.map Step.output_key) ys := by
  induction xs generalizing seen with
  | nil => simp [StepsTopo]
  | cons x xs ih =>
    simp only [List.cons_append, StepsTopo, List.map_cons, List.append_eq]
    rw [ih]
    constructor
    · rintro ⟨h1, h2, h3⟩
      exact ⟨⟨h1, h2⟩, by simpa [List.append_assoc] using h3⟩
    · rintro ⟨⟨h1, h2⟩, h3⟩
      exact ⟨h1, h2, by simpa [List.append_assoc] using h3⟩

/-- What one successful `create_steps` frame guarantees: the result is the
recursively discovered steps followed by the current function's own step,
each inner step is the step of a registered provider under some request,
the whole batch is topologically ordered over the entry seen set, and the
only output key possibly already seen is the frame's own (caller-guarded)
output key. -/
def FrameOK (c : Ctx) (P : List String) (f : FuncSig) (pt pn : Option String)
    (seen : List String) (steps : List Step) : Prop :=
  (∃ pre, steps = pre ++ [create_step c P f pt pn] ∧
      ∀ s ∈ pre, ∃ t g n, List.lookup t c.providers = some g ∧
        s = create_step c P g (some t) (some n)) ∧
  StepsTopo seen steps ∧
  (∀ k ∈ steps.map Step.output_key, k ∈ seen → k = get_key pt pn P)

theorem resolveLoop_ok (c : Ctx) (P : List String)
    (recur : FuncSig → String → String → List String → Except BErr (List Step))
    (Hrec : ∀ g t n seen1 steps1, List.lookup t c.providers = some g →
        get_key (some t) (some n) P ∉ seen1 →
        recur g t n seen1 = .ok steps1 → FrameOK c P g (some t) (some n) seen1 steps1) :
    ∀ (ps : List Param) (acc : List Step) (seen : List String)
      (res : List Step) (seen' : List String),
      resolveLoop recur c.providers P ps acc seen = .ok (res, seen') →
      ∃ Δ, res = acc ++ Δ ∧ seen' = seen ++ Δ.map Step.output_key ∧
        StepsTopo seen Δ ∧
        (∀ k ∈ Δ.map Step.output_key, k ∉ seen) ∧
        (∀ s ∈ Δ, ∃ t g n, List.lookup t c.providers = some g ∧
            s = create_step c P g (some t) (some n)) ∧
        (∀ p ∈ ps, ∀ t, p.ann = .ty t → get_key (some t) (some p.name) P ∈ seen') := by
  intro ps
  induction ps with
  | nil =>
    intro acc seen res seen' h
    simp only [resolveLoop, Except.ok.injEq, Prod.mk.injEq] at h
    exact ⟨[], by simp [h.1.symm, h.2.symm, StepsTopo]⟩
  | cons p rest ih =>
    intro acc seen res seen' h
    cases hann : p.ann with
    | pname =>
      simp only [resolveLoop, hann] at h
      obtain ⟨Δ, h1, h2, h3, h4, h5, h6⟩ := ih acc seen res seen' h
      refine ⟨Δ, h1, h2, h3, h4, h5, ?_⟩
      intro q hq t hty
      rcases List.mem_cons.mp hq with hq | hq
      · subst hq; rw [hann] at hty; cases hty
      · exact h6 q hq t hty
    | ty t =>
      simp only [resolveLoop, hann] at h
      by_cases hk : get_key (some t) (some p.name) P ∈ seen
      · rw [if_pos hk] at h
        obtain ⟨Δ, h1, h2, h3, h4, h5, h6⟩ := ih acc seen res seen' h
        refine ⟨Δ, h1, h2, h3, h4, h5, ?_⟩
        intro q hq t' hty
        rcases List.mem_cons.mp hq with hq | hq
        · subst hq
          rw [hann] at hty
          cases hty
          exact h2 ▸ List.mem_append_left _ hk
        · exact h6 q hq t' hty
      · rw [if_neg hk] at h
        cases hl : List.lookup t c.providers with
        | none => simp only [hl] at h; exact Except.noConfusion h
        | some g =>
          simp only [hl] at h
          cases hr : recur g t p.name seen with
          | error e => simp only [hr] at h; exact Except.noConfusion h
          | ok psteps =>
            simp only [hr] at h
            obtain ⟨⟨pre0, hpre0, hshape0⟩, htopo0, hfresh0⟩ := Hrec g t p.name seen psteps hl hk hr
            obtain ⟨Δ', h1, h2, h3, h4, h5, h6⟩ := ih (acc ++ psteps) (seen ++ psteps.map Step.output_key) res seen' h
            refine ⟨psteps ++ Δ', ?_, ?_, ?_, ?_, ?_, ?_⟩
            · rw [h1, List.append_assoc]
            · rw [h2, List.map_append, List.append_assoc]
            · rw [stepsTopo_append]
              exact ⟨htopo0, h3⟩
            · intro k hkm
              rw [List.map_append, List.mem_append] at hkm
              rcases hkm with hkm | hkm
              · intro hks
                exact hk ((hfresh0 k hkm hks) ▸ hks)
              · intro hks
                exact h4 k hkm (List.mem_append_left _ hks)
            · intro s hs
              rw [List.mem_append] at hs
              rcases hs with hs | hs
              · rw [hpre0] at hs
                rcases List.mem_append.mp hs with hs | hs
                · exact hshape0 s hs
                · rcases List.mem_singleton.mp hs with rfl
                  exact ⟨t, g, p.name, hl, rfl⟩
              · exact h5 s hs
            · intro q hq t' hty
              rcases List.mem_cons.mp hq with hq | hq
              · subst hq
                rw [hann] at hty
                cases hty
                rw [h2]
                apply List.mem_append_left
                apply List.mem_append_right
                rw [hpre0, List.map_append]
                apply List.mem_append_right
                simp [create_step]
              · exact h6 q hq t' hty

theorem create_steps_ok (c : Ctx) (P : List String) :
    ∀ (fuel : Nat) (f : FuncSig) (pt pn : Option String) (seen : List String) (steps : List Step),
      create_steps c P fuel f pt pn seen = .ok steps →
      FrameOK c P f pt pn seen steps := by
  intro fuel
  induction fuel with
  | zero => intro f pt pn seen steps h; simp [create_steps] at h
  | succ fuel ih =>
    intro f pt pn seen steps h
    simp only [create_steps] at h
    cases hl : resolveLoop (fun g t n s => create_steps c P fuel g (some t) (some n) s)
        c.providers P f.params [] seen with
    | error e => simp only [hl] at h; exact Except.noConfusion h
    | ok pr =>
      obtain ⟨Δ0, seen''⟩ := pr
      simp only [hl, Except.ok.injEq] at h
      subst h
      obtain ⟨Δ, h1, h2, h3, h4, h5, h6⟩ :=
        resolveLoop_ok c P _ (fun g t n s1 st1 _ _ hr => ih g (some t) (some n) s1 st1 hr)
          f.params [] seen Δ0 seen'' hl
      rw [List.nil_append] at h1
      subst h1
      refine ⟨⟨_, rfl, h5⟩, ?_, ?_⟩
      · rw [stepsTopo_append]
        refine ⟨h3, ?_, trivial⟩
        intro ak hak
        simp only [create_step, List.mem_map, List.mem_filter] at hak
        obtain ⟨q, ⟨hqmem, hqpn⟩, rfl⟩ := hak
        cases hqann : q.ann with
        | pname => simp [isPN, hqann] at hqpn
        | ty t =>
          have := h6 q hqmem t hqann
          rw [h2] at this
          simpa [paramKey, hqann] using this
      · intro k hk hks
        rw [List.map_append, List.mem_append] at hk
        rcases hk with hk | hk
        · exact absurd hks (h4 k hk)
        · simpa [create_step] using hk

theorem stepsTopo_positional (steps : List Step) (seen : List String)
    (h : StepsTopo seen steps) :
    ∀ i, (hi : i < steps.length) → ∀ ak ∈ steps[i].input_keys,
      ak.2 ∈ seen ∨
      ∃ j, ∃ hj : j < steps.length, j < i ∧ steps[j].output_key = ak.2 := by
  induction steps generalizing seen with
  | nil => intro i hi; cases hi
  | cons s rest ih =>
    intro i hi ak hak
    cases i with
    | zero => exact Or.inl (h.1 ak hak)
    | succ i =>
      have hi' : i < rest.length := Nat.lt_of_succ_lt_succ hi
      have := ih (seen ++ [s.output_key]) h.2 i hi' ak hak
      rcases this with hmem | ⟨j, hj, hji, hout⟩
      · rcases List.mem_append.mp hmem with hmem | hmem
        · exact Or.inl hmem
        · refine Or.inr ⟨0, Nat.succ_pos _, Nat.succ_pos _, ?_⟩
          simpa using (List.mem_singleton.mp hmem).symm
      · exact Or.inr ⟨j + 1, Nat.succ_lt_succ hj, Nat.succ_lt_succ hji, hout⟩

theorem inject_ok_create_steps (c : Ctx) (fuel : Nat) (f : FuncSig) (inj : InjectedFunction)
    (h : inject c fuel f = .ok inj) :
    create_steps c (parameterized_types c) fuel f none none
        (c.required_state.map (fun nt => get_key (some nt.2) none [])) = .ok inj.steps ∧
    inj.state_key_mapping = c.required_state.map (fun nt => (nt.1, get_key (some nt.2) none [])) := by
  unfold inject at h
  cases hc : create_steps c (parameterized_types c) fuel f none none
      (c.required_state.map (fun nt => get_key (some nt.2) none [])) with
  | error e => simp only [hc] at h; exact Except.noConfusion h
  | ok steps =>
    simp only [hc, Except.ok.injEq] at h
    subst h
    exact ⟨rfl, rfl⟩

/-- C1: for every successful build, the plan is in topological order — every
input key of the step at position `i` is either the key of an
externally-supplied type declared in `required_state`, or the output key of
a step at a position strictly less than `i`. -/
theorem C1_topological_order (c : Ctx) (fuel : Nat) (f : FuncSig) (inj : InjectedFunction)
    (h : inject c fuel f = .ok inj) :
    ∀ i, (hi : i < inj.steps.length) → ∀ ak ∈ inj.steps[i].input_keys,
      ak.2 ∈ c.required_state.map (fun nt => get_key (some nt.2) none []) ∨
      ∃ j, ∃ hj : j < inj.steps.length, j < i ∧ inj.steps[j].output_key = ak.2 := by
  have hc := (inject_ok_create_steps c fuel f inj h).1
  have hok := create_steps_ok c (parameterized_types c) fuel f none none _ _ hc
  exact stepsTopo_positional inj.steps _ hok.2.1

/-! Section: Well-formed class names and key injectivity. -/

/-- A usable Python class name: its lowercase form is nonempty and free of
the `:` separator (true of every name introduced by a `class` statement). -/
def GoodName (t : String) : Bool :=
  decide (strLower t ≠ "") && decide (':' ∉ (strLower t).data)

/-- Well-formedness of a set of class names: each is usable and no two
distinct names collide after lowercasing (`get_key` identifies types by
their lowercased names). -/
@[reducible] def NiceNames (ts : List String) : Prop :=
  (∀ t ∈ ts, GoodName t = true) ∧
  (∀ t1 ∈ ts, ∀ t2 ∈ ts, strLower t1 = strLower t2 → t1 = t2)

/-- The type names the registry knows: provided types and required types. -/
def ctxTypes (c : Ctx) : List String :=
  c.providers.map Prod.fst ++ c.required_state.map Prod.snd

theorem colon_split (l1 : List Char) :
    ∀ (l2 m1 m2 : List Char), ':' ∉ l1 → ':' ∉ l2 →
      l1 ++ ':' :: m1 = l2 ++ ':' :: m2 → l1 = l2 ∧ m1 = m2 := by
  induction l1 with
  | nil =>
    intro l2 m1 m2 _ h2 h
    cases l2 with
    | nil => simpa using h
    | cons b l2' =>
      simp only [List.nil_append, List.cons_append, List.cons.injEq] at h
      exact absurd (h.1 ▸ List.mem_cons_self b l2') (fun hm => h2 (h.1 ▸ hm))
  | cons a l1' ih =>
    intro l2 m1 m2 h1 h2 h
    cases l2 with
    | nil =>
      simp only [List.cons_append, List.nil_append, List.cons.injEq] at h
      exact absurd (h.1 ▸ List.mem_cons_self a l1') (fun hm => h1 hm)
    | cons b l2' =>
      simp only [List.cons_append, List.cons.injEq] at h
      obtain ⟨rfl, h⟩ := h
      have := ih l2' m1 m2 (fun hm => h1 (List.mem_cons_of_mem _ hm))
        (fun hm => h2 (List.mem_cons_of_mem _ hm)) h
      exact ⟨by rw [this.1], this.2⟩

theorem suffix_key_data (x n : String) :
    (x ++ ":" ++ n).data = x.data ++ ':' :: n.data := by
  rw [String.data_append, String.data_append]
  simp

theorem get_key_cases (t : String) (n : Option String) (P : List String) :
    get_key (some t) n P = strLower t ∨
    ∃ s, n = some s ∧ t ∈ P ∧ get_key (some t) n P = strLower t ++ ":" ++ s := by
  cases n with
  | none => exact Or.inl rfl
  | some s =>
    by_cases hm : t ∈ P
    · exact Or.inr ⟨s, rfl, hm, by simp [get_key, hm]⟩
    · exact Or.inl (by simp [get_key, hm])

theorem get_key_ne_empty (t : String) (n : Option String) (P : List String)
    (hg : GoodName t = true) : get_key (some t) n P ≠ "" := by
  have hne : strLower t ≠ "" := by
    have := (Bool.and_eq_true _ _).mp hg
    exact of_decide_eq_true this.1
  rcases get_key_cases t n P with h | ⟨s, _, _, h⟩
  · rw [h]; exact hne
  · rw [h]
    intro hc
    have hd := congrArg String.data hc
    rw [suffix_key_data] at hd
    simp at hd

theorem get_key_inj (t1 t2 : String) (n1 n2 : Option String) (P : List String)
    (g1 : GoodName t1 = true) (g2 : GoodName t2 = true)
    (hlow : strLower t1 = strLower t2 → t1 = t2)
    (h : get_key (some t1) n1 P = get_key (some t2) n2 P) : t1 = t2 := by
  have nc1 : ':' ∉ (strLower t1).data :=
    of_decide_eq_true ((Bool.and_eq_true _ _).mp g1).2
  have nc2 : ':' ∉ (strLower t2).data :=
    of_decide_eq_true ((Bool.and_eq_true _ _).mp g2).2
  rcases get_key_cases t1 n1 P with h1 | ⟨s1, _, _, h1⟩ <;>
    rcases get_key_cases t2 n2 P with h2 | ⟨s2, _, _, h2⟩ <;>
    rw [h1, h2] at h
  · exact hlow (String.ext (congrArg String.data h))
  · exfalso
    have := congrArg String.data h
    rw [suffix_key_data] at this
    exact nc1 (this ▸ List.mem_append_right _ (List.mem_cons_self _ _))
  · exfalso
    have := congrArg String.data h
    rw [suffix_key_data] at this
    exact nc2 (this ▸ List.mem_append_right _ (List.mem_cons_self _ _))
  · have := congrArg String.data h
    rw [suffix_key_data, suffix_key_data] at this
    exact hlow (String.ext (colon_split _ _ _ _ nc1 nc2 this).1)

theorem get_key_name_inj (t : String) (n1 n2 : String) (P : List String)
    (hm : t ∈ P)
    (h : get_key (some t) (some n1) P = get_key (some t) (some n2) P) : n1 = n2 := by
  have h' : strLower t ++ ":" ++ n1 = strLower t ++ ":" ++ n2 := by
    simpa [get_key, hm] using h
  have hd := congrArg String.data h'
  rw [suffix_key_data, suffix_key_data] at hd
  have hd2 := List.append_cancel_left hd
  injection hd2 with hc hd3
  exact String.ext hd3

theorem mem_of_lookup {t : String} {g : FuncSig} {l : List (String × FuncSig)}
    (h : List.lookup t l = some g) : t ∈ l.map Prod.fst := by
  induction l with
  | nil => cases h
  | cons x xs ih =>
    rw [List.lookup] at h
    by_cases hx : t = x.1
    · simp [hx]
    · have hbx : (t == x.1) = false := by simp [hx]
      simp only [hbx] at h
      simp only [List.map_cons, List.mem_cons]
      exact Or.inr (ih h)

theorem lookup_mem {t : String} {g : FuncSig} {l : List (String × FuncSig)}
    (h : List.lookup t l = some g) : (t, g) ∈ l := by
  induction l with
  | nil => cases h
  | cons x xs ih =>
    rw [List.lookup] at h
    by_cases hx : t = x.1
    · have hbx : (t == x.1) = true := by simp [hx]
      simp only [hbx] at h
      simp only [Option.some.injEq] at h
      subst hx
      subst h
      exact List.mem_cons_self _ _
    · have hbx : (t == x.1) = false := by simp [hx]
      simp only [hbx] at h
      exact List.mem_cons_of_mem _ (ih h)

/-! Section: Output-key distinctness of a successful build. -/

/-- Rank bound for an annotation: a `ParamName` marker is unconstrained,
a type annotation must have strictly smaller rank. -/
def annRankLtB (rank : String → Nat) : Ann → Nat → Bool
  | .pname, _ => true
  | .ty u, r => decide (rank u < r)

/-- An acyclicity certificate for the provider registry: some rank function
strictly decreases from each provided type to every type its provider
consumes. -/
@[reducible] def RankOK (rank : String → Nat) (providers : List (String × FuncSig)) : Prop :=
  ∀ tf ∈ providers, ∀ p ∈ tf.2.params, annRankLtB rank p.ann (rank tf.1) = true

theorem resolveLoop_nodup (c : Ctx) (P : List String) (rank : String → Nat)
    (recur : FuncSig → String → String → List String → Except BErr (List Step))
    (Hrec1 : ∀ g t n seen1 steps1, List.lookup t c.providers = some g →
        get_key (some t) (some n) P ∉ seen1 →
        recur g t n seen1 = .ok steps1 → FrameOK c P g (some t) (some n) seen1 steps1)
    (Hrec2 : ∀ g t n seen1 steps1, List.lookup t c.providers = some g →
        get_key (some t) (some n) P ∉ seen1 →
        recur g t n seen1 = .ok steps1 →
        (steps1.map Step.output_key).Nodup ∧
        (∀ s ∈ steps1, ∃ t' n', (List.lookup t' c.providers).isSome ∧
            s.output_key = get_key (some t') (some n') P ∧ rank t' ≤ rank t)) :
    ∀ (ps : List Param) (acc : List Step) (seen : List String)
      (res : List Step) (seen' : List String),
      resolveLoop recur c.providers P ps acc seen = .ok (res, seen') →
      ∃ Δ, res = acc ++ Δ ∧
        (Δ.map Step.output_key).Nodup ∧
        (∀ k ∈ Δ.map Step.output_key, k ∉ seen) ∧
        (∀ s ∈ Δ, ∃ t' n', (List.lookup t' c.providers).isSome ∧
            s.output_key = get_key (some t') (some n') P ∧
            ∃ p ∈ ps, ∃ w, p.ann = Ann.ty w ∧ rank t' ≤ rank w) := by
  intro ps
  induction ps with
  | nil =>
    intro acc seen res seen' h
    simp only [resolveLoop, Except.ok.injEq, Prod.mk.injEq] at h
    exact ⟨[], by simp [h.1.symm]⟩
  | cons p rest ih =>
    intro acc seen res seen' h
    cases hann : p.ann with
    | pname =>
      simp only [resolveLoop, hann] at h
      obtain ⟨Δ, h1, h2, h3, h4⟩ := ih acc seen res seen' h
      refine ⟨Δ, h1, h2, h3, ?_⟩
      intro s hs
      obtain ⟨t', n', hsome, hkey, q, hq, w, hw, hle⟩ := h4 s hs
      exact ⟨t', n', hsome, hkey, q, List.mem_cons_of_mem _ hq, w, hw, hle⟩
    | ty t =>
      simp only [resolveLoop, hann] at h
      by_cases hk : get_key (some t) (some p.name) P ∈ seen
      · rw [if_pos hk] at h
        obtain ⟨Δ, h1, h2, h3, h4⟩ := ih acc seen res seen' h
        refine ⟨Δ, h1, h2, h3, ?_⟩
        intro s hs
        obtain ⟨t', n', hsome, hkey, q, hq, w, hw, hle⟩ := h4 s hs
        exact ⟨t', n', hsome, hkey, q, List.mem_cons_of_mem _ hq, w, hw, hle⟩
      · rw [if_neg hk] at h
        cases hl : List.lookup t c.providers with
        | none => simp only [hl] at h; exact Except.noConfusion h
        | some g =>
          simp only [hl] at h
          cases hr : recur g t p.name seen with
          | error e => simp only [hr] at h; exact Except.noConfusion h
          | ok psteps =>
            simp only [hr] at h
            obtain ⟨ndB, bndB⟩ := Hrec2 g t p.name seen psteps hl hk hr
            have freshB : ∀ k ∈ psteps.map Step.output_key, k ∉ seen := by
              intro k hkm hks
              exact hk ((Hrec1 g t p.name seen psteps hl hk hr).2.2 k hkm hks ▸ hks)
            obtain ⟨Δ', h1, h2, h3, h4⟩ :=
              ih (acc ++ psteps) (seen ++ psteps.map Step.output_key) res seen' h
            refine ⟨psteps ++ Δ', ?_, ?_, ?_, ?_⟩
            · rw [h1, List.append_assoc]
            · rw [List.map_append]
              refine List.Nodup.append ndB h2 ?_
              intro k hkB hkΔ
              exact h3 k hkΔ (List.mem_append_right _ hkB)
            · intro k hkm
              rw [List.map_append, List.mem_append] at hkm
              rcases hkm with hkm | hkm
              · exact freshB k hkm
              · intro hks
                exact h3 k hkm (List.mem_append_left _ hks)
            · intro s hs
              rcases List.mem_append.mp hs with hs | hs
              · obtain ⟨t', n', hsome, hkey, hle⟩ := bndB s hs
                exact ⟨t', n', hsome, hkey, p, List.mem_cons_self _ _, t, hann, hle⟩
              · obtain ⟨t', n', hsome, hkey, q, hq, w, hw, hle⟩ := h4 s hs
                exact ⟨t', n', hsome, hkey, q, List.mem_cons_of_mem _ hq, w, hw, hle⟩

theorem create_steps_nodup (c : Ctx) (P : List String) (rank : String → Nat)
    (hnice : NiceNames (ctxTypes c)) (hrank : RankOK rank c.providers) :
    ∀ (fuel : Nat) (f : FuncSig) (pt pn : Option String) (seen : List String) (steps : List Step),
      (pt = none ∨ ∃ u n0, pt = some u ∧ pn = some n0 ∧ List.lookup u c.providers = some f) →
      get_key pt pn P ∉ seen →
      create_steps c P fuel f pt pn seen = .ok steps →
      (steps.map Step.output_key).Nodup ∧
      (∀ u n0, pt = some u → pn = some n0 →
        ∀ s ∈ steps, ∃ t' n', (List.lookup t' c.providers).isSome ∧
          s.output_key = get_key (some t') (some n') P ∧ rank t' ≤ rank u) := by
  intro fuel
  induction fuel with
  | zero => intro f pt pn seen steps _ _ h; simp [create_steps] at h
  | succ fuel ih =>
    intro f pt pn seen steps hpt hguard h
    simp only [create_steps] at h
    cases hl : resolveLoop (fun g t n s => create_steps c P fuel g (some t) (some n) s)
        c.providers P f.params [] seen with
    | error e => simp only [hl] at h; exact Except.noConfusion h
    | ok pr =>
      obtain ⟨Δ0, seen''⟩ := pr
      simp only [hl, Except.ok.injEq] at h
      subst h
      obtain ⟨Δ, h1, h2, h3, h4⟩ :=
        resolveLoop_nodup c P rank _
          (fun g t n s1 st1 _ _ hr => create_steps_ok c P fuel g (some t) (some n) s1 st1 hr)
          (fun g t n s1 st1 hlk hg hr =>
            ⟨(ih g (some t) (some n) s1 st1 (Or.inr ⟨t, n, rfl, rfl, hlk⟩) hg hr).1,
             fun s hs => (ih g (some t) (some n) s1 st1
               (Or.inr ⟨t, n, rfl, rfl, hlk⟩) hg hr).2 t n rfl rfl s hs⟩)
          f.params [] seen Δ0 seen'' hl
      rw [List.nil_append] at h1
      rw [h1]
      have hgood : ∀ t' : String, (List.lookup t' c.providers).isSome → GoodName t' = true := by
        intro t' hsome
        obtain ⟨g', hg'⟩ := Option.isSome_iff_exists.mp hsome
        exact hnice.1 t' (List.mem_append_left _ (mem_of_lookup hg'))
      have hlow : ∀ t1 t2 : String, (List.lookup t1 c.providers).isSome →
          (List.lookup t2 c.providers).isSome → strLower t1 = strLower t2 → t1 = t2 := by
        intro t1 t2 hs1 hs2
        obtain ⟨g1, hg1⟩ := Option.isSome_iff_exists.mp hs1
        obtain ⟨g2, hg2⟩ := Option.isSome_iff_exists.mp hs2
        exact hnice.2 t1 (List.mem_append_left _ (mem_of_lookup hg1))
          t2 (List.mem_append_left _ (mem_of_lookup hg2))
      have hrankstep : ∀ u n0, pt = some u → pn = some n0 →
          ∀ s ∈ Δ, ∃ t' n', (List.lookup t' c.providers).isSome ∧
            s.output_key = get_key (some t') (some n') P ∧ rank t' < rank u := by
        intro u n0 hu hn s hs
        obtain ⟨t', n', hsome, hkey, q, hq, w, hw, hle⟩ := h4 s hs
        rcases hpt with hpt | ⟨u', n0', hu', hn', hlf⟩
        · rw [hpt] at hu; cases hu
        · rw [hu'] at hu
          injection hu with hu
          subst hu
          have hmem : (u', f) ∈ c.providers := lookup_mem hlf
          have := hrank (u', f) hmem q hq
          rw [hw] at this
          have hlt : rank w < rank u' := of_decide_eq_true this
          exact ⟨t', n', hsome, hkey, Nat.lt_of_le_of_lt hle hlt⟩
      constructor
      · rw [List.map_append]
        refine List.Nodup.append h2 (by simp) ?_
        intro k hkΔ hkF
        simp only [List.map_cons, List.map_nil, List.mem_singleton] at hkF
        have hkey : k = (create_step c P f pt pn).output_key := hkF
        rcases List.mem_map.mp hkΔ with ⟨s, hs, rfl⟩
        rcases hpt with hptn | ⟨u, n0, hu, hn, hlf⟩
        · obtain ⟨t', n', hsome, hkey', q, hq, w, hw, hle⟩ := h4 s hs
          have : s.output_key ≠ "" := by
            rw [hkey']
            exact get_key_ne_empty t' (some n') P (hgood t' hsome)
          apply this
          rw [hkey]
          simp [create_step, hptn, get_key]
        · obtain ⟨t', n', hsome, hkey', hlt⟩ := hrankstep u n0 hu hn s hs
          have houtf : (create_step c P f pt pn).output_key = get_key (some u) (some n0) P := by
            simp [create_step, hu, hn]
          have hueq : t' = u := by
            refine get_key_inj t' u (some n') (some n0) P (hgood t' hsome)
              (hgood u (by rw [hlf]; rfl)) ?_ ?_
            · exact hlow t' u hsome (by rw [hlf]; rfl)
            · rw [← hkey', hkey, houtf]
          rw [hueq] at hlt
          exact Nat.lt_irrefl _ hlt
      · intro u n0 hu hn s hs
        rcases List.mem_append.mp hs with hs | hs
        · obtain ⟨t', n', hsome, hkey', hlt⟩ := hrankstep u n0 hu hn s hs
          exact ⟨t', n', hsome, hkey', Nat.le_of_lt hlt⟩
        · rcases List.mem_singleton.mp hs with rfl
          rcases hpt with hptn | ⟨u', n0', hu', hn', hlf⟩
          · rw [hptn] at hu; cases hu
          · rw [hu'] at hu
            injection hu with hu
            subst hu
            rw [hn'] at hn
            injection hn with hn
            subst hn
            refine ⟨u', n0', by rw [hlf]; rfl, ?_, Nat.le_refl _⟩
            simp [create_step, hu', hn']

/-! Section: Plan-level consequences used by the deduplication claims. -/

/-- The dependency keys of the externally-supplied types, as `Injector.inject`
seeds them into the seen set. -/
def extKeys (c : Ctx) : List String :=
  c.required_state.map (fun nt => get_key (some nt.2) none [])

theorem create_steps_all_shape (c : Ctx) (P : List String) (fuel : Nat) (f : FuncSig)
    (pt pn : Option String) (seen : List String) (steps : List Step)
    (h : create_steps c P fuel f pt pn seen = .ok steps) :
    ∀ s ∈ steps, ∃ f' pt' pn', s = create_step c P f' pt' pn' := by
  obtain ⟨⟨pre, hpre, hsh⟩, _, _⟩ := create_steps_ok c P fuel f pt pn seen steps h
  rw [hpre]
  intro s hs
  rcases List.mem_append.mp hs with hs | hs
  · obtain ⟨t, g, n, _, hsg⟩ := hsh s hs
    exact ⟨g, some t, some n, hsg⟩
  · rcases List.mem_singleton.mp hs with rfl
    exact ⟨f, pt, pn, rfl⟩

theorem create_step_types_to_keys (c : Ctx) (P : List String) (g : FuncSig)
    (pt pn : Option String) (a t : String)
    (h : (a, Ann.ty t) ∈ (create_step c P g pt pn).input_types) :
    (a, get_key (some t) (some a) P) ∈ (create_step c P g pt pn).input_keys := by
  simp only [create_step, List.mem_map] at h
  obtain ⟨p, hp, heq⟩ := h
  have hname : p.name = a := congrArg Prod.fst heq
  have hann : p.ann = Ann.ty t := congrArg Prod.snd heq
  simp only [create_step, List.mem_map]
  refine ⟨p, List.mem_filter.mpr ⟨hp, by simp [isPN, hann]⟩, ?_⟩
  rw [paramKey, hann, hname]

theorem empty_not_mem_extKeys (c : Ctx) (hnice : NiceNames (ctxTypes c)) :
    "" ∉ extKeys c := by
  intro hmem
  obtain ⟨nt, hnt, hkey⟩ := List.mem_map.mp hmem
  refine get_key_ne_empty nt.2 none [] ?_ hkey
  exact hnice.1 nt.2 (List.mem_append_right _ (List.mem_map.mpr ⟨nt, hnt, rfl⟩))

theorem param_key_not_mem_extKeys (c : Ctx) (t n : String)
    (hnice : NiceNames (ctxTypes c)) (hP : t ∈ parameterized_types c) :
    get_key (some t) (some n) (parameterized_types c) ∉ extKeys c := by
  intro hmem
  obtain ⟨nt, hnt, hkey⟩ := List.mem_map.mp hmem
  have hgu : GoodName nt.2 = true :=
    hnice.1 nt.2 (List.mem_append_right _ (List.mem_map.mpr ⟨nt, hnt, rfl⟩))
  have hnc : ':' ∉ (strLower nt.2).data :=
    of_decide_eq_true ((Bool.and_eq_true _ _).mp hgu).2
  have hform : get_key (some t) (some n) (parameterized_types c) = strLower t ++ ":" ++ n := by
    simp [get_key, hP]
  have hext : get_key (some nt.2) none ([] : List String) = strLower nt.2 := rfl
  rw [hform, hext] at hkey
  have hd := congrArg String.data hkey
  rw [suffix_key_data] at hd
  exact hnc (hd ▸ List.mem_append_right _ (List.mem_cons_self _ _))

theorem consumed_key_produced (c : Ctx) (fuel : Nat) (f : FuncSig) (inj : InjectedFunction)
    (h : inject c fuel f = .ok inj)
    (S : Step) (hS : S ∈ inj.steps) (a k : String) (hk : (a, k) ∈ S.input_keys)
    (hext : k ∉ extKeys c) :
    ∃ T, T ∈ inj.steps ∧ T.output_key = k := by
  have hc := (inject_ok_create_steps c fuel f inj h).1
  have htopo := (create_steps_ok c (parameterized_types c) fuel f none none _ _ hc).2.1
  obtain ⟨⟨i, hi⟩, hget⟩ := List.mem_iff_get.mp hS
  rw [List.get_eq_getElem] at hget
  have hpos := stepsTopo_positional inj.steps _ htopo i hi
  have := hpos (a, k) (by rw [hget]; exact hk)
  rcases this with hmem | ⟨j, hj, _, hout⟩
  · exact absurd hmem hext
  · exact ⟨inj.steps[j], List.getElem_mem hj, hout⟩

theorem filter_out_le_one (steps : List Step) (k : String)
    (h : (steps.map Step.output_key).Nodup) :
    (steps.filter (fun s => s.output_key == k)).length ≤ 1 := by
  induction steps with
  | nil => simp
  | cons s rest ih =>
    rw [List.map_cons, List.nodup_cons] at h
    by_cases hk : s.output_key = k
    · have hrest : rest.filter (fun s => s.output_key == k) = [] := by
        rw [List.filter_eq_nil_iff]
        intro x hx hbeq
        exact h.1 (List.mem_map.mpr ⟨x, hx, by
          have := of_decide_eq_true hbeq
          rw [this, hk]⟩)
      simp [List.filter_cons, hk, hrest]
    · simp only [List.filter_cons]
      have : (s.output_key == k) = false := by simp [hk]
      rw [this]
      exact ih h.2

theorem filter_out_pos (steps : List Step) (k : String) (T : Step)
    (hT : T ∈ steps) (hk : T.output_key = k) :
    1 ≤ (steps.filter (fun s => s.output_key == k)).length := by
  have : T ∈ steps.filter (fun s => s.output_key == k) :=
    List.mem_filter.mpr ⟨hT, by simp [hk]⟩
  calc 1 ≤ (steps.filter (fun s => s.output_key == k)).length :=
    List.length_pos.mpr (List.ne_nil_of_mem this)

theorem inject_steps_nodup (c : Ctx) (fuel : Nat) (f : FuncSig) (inj : InjectedFunction)
    (rank : String → Nat) (hnice : NiceNames (ctxTypes c)) (hrank : RankOK rank c.providers)
    (h : inject c fuel f = .ok inj) :
    (inj.steps.map Step.output_key).Nodup := by
  have hc := (inject_ok_create_steps c fuel f inj h).1
  refine (create_steps_nodup c (parameterized_types c) rank hnice hrank fuel f none none _ _
    (Or.inl rfl) ?_ hc).1
  exact empty_not_mem_extKeys c hnice

/-- C2: in a successful build in which two distinct steps (providers or the
target) each consume the same non-name-parameterized, non-external type `t`,
the plan has exactly one step producing `t`'s key, and every consumer of `t`
binds its parameter to that same key (so all consumers share the one stored
value). -/
theorem C2_deduplication (c : Ctx) (fuel : Nat) (f : FuncSig) (inj : InjectedFunction)
    (rank : String → Nat)
    (hnice : NiceNames (ctxTypes c)) (hrank : RankOK rank c.providers)
    (h : inject c fuel f = .ok inj)
    (t : String) (hnp : t ∉ parameterized_types c) (hext : strLower t ∉ extKeys c)
    (S1 S2 : Step) (hS1 : S1 ∈ inj.steps) (hS2 : S2 ∈ inj.steps) (hne : S1 ≠ S2)
    (n1 n2 : String)
    (hc1 : (n1, Ann.ty t) ∈ S1.input_types) (hc2 : (n2, Ann.ty t) ∈ S2.input_types) :
    (inj.steps.filter (fun s => s.output_key == strLower t)).length = 1 ∧
    (∀ S ∈ inj.steps, ∀ a, (a, Ann.ty t) ∈ S.input_types → (a, strLower t) ∈ S.input_keys) := by
  have hc := (inject_ok_create_steps c fuel f inj h).1
  have hshape := create_steps_all_shape c (parameterized_types c) fuel f none none _ _ hc
  have hkey : ∀ a : String, get_key (some t) (some a) (parameterized_types c) = strLower t := by
    intro a
    simp [get_key, hnp]
  have hcons : ∀ S ∈ inj.steps, ∀ a, (a, Ann.ty t) ∈ S.input_types →
      (a, strLower t) ∈ S.input_keys := by
    intro S hS a ha
    obtain ⟨f', pt', pn', rfl⟩ := hshape S hS
    have := create_step_types_to_keys c (parameterized_types c) f' pt' pn' a t ha
    rwa [hkey a] at this
  refine ⟨?_, hcons⟩
  have hk1 : (n1, strLower t) ∈ S1.input_keys := hcons S1 hS1 n1 hc1
  obtain ⟨T, hT, hTk⟩ := consumed_key_produced c fuel f inj h S1 hS1 n1 _ hk1 hext
  exact Nat.le_antisymm
    (filter_out_le_one _ _ (inject_steps_nodup c fuel f inj rank hnice hrank h))
    (filter_out_pos _ _ T hT hTk)

/-- C3: in a successful build, requests for a name-parameterized type under
distinct logical names have distinct `typekey:name` keys and are produced by
two distinct steps; each requested non-external key is produced by exactly
one step (same-name requests collapse); and for a non-name-parameterized
type every request maps to the single plain type key, whatever the
requesting parameter's name. -/
theorem C3_name_parameterization (c : Ctx) (fuel : Nat) (f : FuncSig) (inj : InjectedFunction)
    (rank : String → Nat)
    (hnice : NiceNames (ctxTypes c)) (hrank : RankOK rank c.providers)
    (h : inject c fuel f = .ok inj) (t : String) :
    (∀ n1 n2 S1 S2, t ∈ parameterized_types c → S1 ∈ inj.steps → S2 ∈ inj.steps →
      (n1, Ann.ty t) ∈ S1.input_types → (n2, Ann.ty t) ∈ S2.input_types → n1 ≠ n2 →
      get_key (some t) (some n1) (parameterized_types c) = strLower t ++ ":" ++ n1 ∧
      get_key (some t) (some n2) (parameterized_types c) = strLower t ++ ":" ++ n2 ∧
      strLower t ++ ":" ++ n1 ≠ strLower t ++ ":" ++ n2 ∧
      ∃ T1, T1 ∈ inj.steps ∧ T1.output_key = strLower t ++ ":" ++ n1 ∧
      ∃ T2, T2 ∈ inj.steps ∧ T2.output_key = strLower t ++ ":" ++ n2 ∧ T1 ≠ T2) ∧
    (∀ S ∈ inj.steps, ∀ n, (n, Ann.ty t) ∈ S.input_types →
      get_key (some t) (some n) (parameterized_types c) ∉ extKeys c →
      (inj.steps.filter
        (fun s => s.output_key == get_key (some t) (some n) (parameterized_types c))).length = 1) ∧
    (t ∉ parameterized_types c → ∀ n,
      get_key (some t) (some n) (parameterized_types c) = strLower t) := by
  have hc := (inject_ok_create_steps c fuel f inj h).1
  have hshape := create_steps_all_shape c (parameterized_types c) fuel f none none _ _ hc
  have hconsume : ∀ S ∈ inj.steps, ∀ n, (n, Ann.ty t) ∈ S.input_types →
      (n, get_key (some t) (some n) (parameterized_types c)) ∈ S.input_keys := by
    intro S hS n hn
    obtain ⟨f', pt', pn', rfl⟩ := hshape S hS
    exact create_step_types_to_keys c (parameterized_types c) f' pt' pn' n t hn
  have hone : ∀ S ∈ inj.steps, ∀ n, (n, Ann.ty t) ∈ S.input_types →
      get_key (some t) (some n) (parameterized_types c) ∉ extKeys c →
      (inj.steps.filter
        (fun s => s.output_key == get_key (some t) (some n) (parameterized_types c))).length = 1 := by
    intro S hS n hn hnin
    obtain ⟨T, hT, hTk⟩ :=
      consumed_key_produced c fuel f inj h S hS n _ (hconsume S hS n hn) hnin
    exact Nat.le_antisymm
      (filter_out_le_one _ _ (inject_steps_nodup c fuel f inj rank hnice hrank h))
      (filter_out_pos _ _ T hT hTk)
  refine ⟨?_, hone, ?_⟩
  · intro n1 n2 S1 S2 hP hS1 hS2 h1 h2 hnn
    have hk1 : get_key (some t) (some n1) (parameterized_types c) = strLower t ++ ":" ++ n1 := by
      simp [get_key, hP]
    have hk2 : get_key (some t) (some n2) (parameterized_types c) = strLower t ++ ":" ++ n2 := by
      simp [get_key, hP]
    have hkne : strLower t ++ ":" ++ n1 ≠ strLower t ++ ":" ++ n2 := by
      intro he
      apply hnn
      have hd := congrArg String.data he
      rw [suffix_key_data, suffix_key_data] at hd
      have hd2 := List.append_cancel_left hd
      injection hd2 with hc3 hd3
      exact String.ext hd3
    obtain ⟨T1, hT1, hT1k⟩ := consumed_key_produced c fuel f inj h S1 hS1 n1 _
      (hconsume S1 hS1 n1 h1) (hk1 ▸ param_key_not_mem_extKeys c t n1 hnice hP)
    obtain ⟨T2, hT2, hT2k⟩ := consumed_key_produced c fuel f inj h S2 hS2 n2 _
      (hconsume S2 hS2 n2 h2) (hk2 ▸ param_key_not_mem_extKeys c t n2 hnice hP)
    rw [hk1] at hT1k
    rw [hk2] at hT2k
    refine ⟨hk1, hk2, hkne, T1, hT1, hT1k, T2, hT2, hT2k, ?_⟩
    intro he
    exact hkne (hT1k ▸ he ▸ hT2k)
  · intro hnp n
    simp [get_key, hnp]

/-! Section: Unresolved dependencies. -/

/-- Demand-driven transitive requirement: `f` requires type `t` when a
parameter of `f` is annotated `t`, or when a parameter of `f` has a
provided type whose key is not externally supplied and whose provider
(transitively) requires `t`. -/
inductive Requires (providers : List (String × FuncSig)) (ext : List String)
    (P : List String) : FuncSig → String → Prop
  | here (f : FuncSig) (n t : String) :
      (⟨n, Ann.ty t⟩ : Param) ∈ f.params →
      Requires providers ext P f t
  | step (f : FuncSig) (n u t : String) (g : FuncSig) :
      (⟨n, Ann.ty u⟩ : Param) ∈ f.params →
      get_key (some u) (some n) P ∉ ext →
      List.lookup u providers = some g →
      Requires providers ext P g t →
      Requires providers ext P f t

/-- A key that cannot mask a demand for the unprovidable type `t`: the empty
key, an external key, or the key of a provided type whose provider does not
require `t`. -/
def CleanKey (c : Ctx) (P : List String) (t : String) (k : String) : Prop :=
  k = "" ∨
  (∃ u, u ∈ c.required_state.map Prod.snd ∧ k = get_key (some u) none []) ∨
  (∃ u g n, List.lookup u c.providers = some g ∧
    ¬ Requires c.providers (extKeys c) P g t ∧ k = get_key (some u) (some n) P)

theorem resolveLoop_inv (providers : List (String × FuncSig)) (P : List String)
    (recur : FuncSig → String → String → List String → Except BErr (List Step))
    (Q : String → Prop)
    (Hpres : ∀ g t' n' seen1 psteps, (∀ k ∈ seen1, Q k) →
        List.lookup t' providers = some g →
        get_key (some t') (some n') P ∉ seen1 →
        recur g t' n' seen1 = .ok psteps → ∀ k ∈ psteps.map Step.output_key, Q k) :
    ∀ (ps : List Param) (acc : List Step) (seen : List String)
      (res : List Step) (seen' : List String),
      (∀ k ∈ seen, Q k) →
      resolveLoop recur providers P ps acc seen = .ok (res, seen') →
      (∀ k ∈ seen', Q k) ∧
      (∀ p ∈ ps, ∀ u, p.ann = Ann.ty u →
        ∃ seen1, (∀ k ∈ seen1, Q k) ∧
          (get_key (some u) (some p.name) P ∈ seen1 ∨
           (get_key (some u) (some p.name) P ∉ seen1 ∧
            ∃ g psteps, List.lookup u providers = some g ∧
              recur g u p.name seen1 = .ok psteps))) := by
  intro ps
  induction ps with
  | nil =>
    intro acc seen res seen' hQ h
    simp only [resolveLoop, Except.ok.injEq, Prod.mk.injEq] at h
    exact ⟨h.2 ▸ hQ, by simp⟩
  | cons p rest ih =>
    intro acc seen res seen' hQ h
    cases hann : p.ann with
    | pname =>
      simp only [resolveLoop, hann] at h
      obtain ⟨h1, h2⟩ := ih acc seen res seen' hQ h
      refine ⟨h1, ?_⟩
      intro q hq u hu
      rcases List.mem_cons.mp hq with hq | hq
      · subst hq; rw [hann] at hu; cases hu
      · exact h2 q hq u hu
    | ty t' =>
      simp only [resolveLoop, hann] at h
      by_cases hk : get_key (some t') (some p.name) P ∈ seen
      · rw [if_pos hk] at h
        obtain ⟨h1, h2⟩ := ih acc seen res seen' hQ h
        refine ⟨h1, ?_⟩
        intro q hq u hu
        rcases List.mem_cons.mp hq with hq | hq
        · subst hq
          rw [hann] at hu
          cases hu
          exact ⟨seen, hQ, Or.inl hk⟩
        · exact h2 q hq u hu
      · rw [if_neg hk] at h
        cases hl : List.lookup t' providers with
        | none => simp only [hl] at h; exact Except.noConfusion h
        | some g =>
          simp only [hl] at h
          cases hr : recur g t' p.name seen with
          | error e => simp only [hr] at h; exact Except.noConfusion h
          | ok psteps =>
            simp only [hr] at h
            have hQ' : ∀ k ∈ seen ++ psteps.map Step.output_key, Q k := by
              intro k hkm
              rcases List.mem_append.mp hkm with hkm | hkm
              · exact hQ k hkm
              · exact Hpres g t' p.name seen psteps hQ hl hk hr k hkm
            obtain ⟨h1, h2⟩ := ih (acc ++ psteps) (seen ++ psteps.map Step.output_key)
              res seen' hQ' h
            refine ⟨h1, ?_⟩
            intro q hq u hu
            rcases List.mem_cons.mp hq with hq | hq
            · subst hq
              rw [hann] at hu
              cases hu
              exact ⟨seen, hQ, Or.inr ⟨hk, g, psteps, hl, hr⟩⟩
            · exact h2 q hq u hu

theorem create_steps_not_requires (c : Ctx) (P : List String) (t : String)
    (hnice : NiceNames (t :: ctxTypes c))
    (hlt : List.lookup t c.providers = none)
    (hnr : t ∉ c.required_state.map Prod.snd) :
    ∀ (fuel : Nat) (f : FuncSig) (pt pn : Option String) (seen : List String) (steps : List Step),
      (pt = none ∨ ∃ u n0, pt = some u ∧ pn = some n0 ∧ List.lookup u c.providers = some f) →
      (∀ k ∈ seen, CleanKey c P t k) →
      create_steps c P fuel f pt pn seen = .ok steps →
      ¬ Requires c.providers (extKeys c) P f t ∧
      (∀ k ∈ steps.map Step.output_key, CleanKey c P t k) := by
  have hgoodt : GoodName t = true := hnice.1 t (List.mem_cons_self _ _)
  have hgoodreg : ∀ u g, List.lookup u c.providers = some g → GoodName u = true := by
    intro u g hu
    exact hnice.1 u (List.mem_cons_of_mem _ (List.mem_append_left _ (mem_of_lookup hu)))
  have hgoodreq : ∀ u, u ∈ c.required_state.map Prod.snd → GoodName u = true := by
    intro u hu
    exact hnice.1 u (List.mem_cons_of_mem _ (List.mem_append_right _ hu))
  -- a clean key can be the key of a registered type only via a provider that
  -- does not require t, and can never be the key of t itself
  have hcleant : ∀ (n : String) (seen1 : List String), (∀ k ∈ seen1, CleanKey c P t k) →
      get_key (some t) (some n) P ∉ seen1 := by
    intro n seen1 hQ hmem
    rcases hQ _ hmem with hk | ⟨u, hu, hk⟩ | ⟨u, g, n', hlu, _, hk⟩
    · exact get_key_ne_empty t (some n) P hgoodt hk
    · have : t = u := by
        refine get_key_inj t u (some n) none P hgoodt (hgoodreq u hu) ?_ hk
        exact hnice.2 t (List.mem_cons_self _ _) u (List.mem_cons_of_mem _ (List.mem_append_right _ hu))
      exact hnr (this ▸ hu)
    · have : t = u := by
        refine get_key_inj t u (some n) (some n') P hgoodt (hgoodreg u g hlu) ?_ hk
        exact hnice.2 t (List.mem_cons_self _ _) u
          (List.mem_cons_of_mem _ (List.mem_append_left _ (mem_of_lookup hlu)))
      rw [this, hlu] at hlt
      exact Option.noConfusion hlt
  intro fuel
  induction fuel with
  | zero => intro f pt pn seen steps _ _ h; simp [create_steps] at h
  | succ fuel ih =>
    intro f pt pn seen steps hpt hQ h
    simp only [create_steps] at h
    cases hl : resolveLoop (fun g t' n s => create_steps c P fuel g (some t') (some n) s)
        c.providers P f.params [] seen with
    | error e => simp only [hl] at h; exact Except.noConfusion h
    | ok pr =>
      obtain ⟨Δ0, seen''⟩ := pr
      simp only [hl, Except.ok.injEq] at h
      have Hpres : ∀ g t' n' seen1 psteps, (∀ k ∈ seen1, CleanKey c P t k) →
          List.lookup t' c.providers = some g →
          get_key (some t') (some n') P ∉ seen1 →
          create_steps c P fuel g (some t') (some n') seen1 = .ok psteps →
          ∀ k ∈ psteps.map Step.output_key, CleanKey c P t k := by
        intro g t' n' seen1 psteps hQ1 hlu _ hr
        exact (ih g (some t') (some n') seen1 psteps (Or.inr ⟨t', n', rfl, rfl, hlu⟩) hQ1 hr).2
      obtain ⟨hQ'', hproc⟩ := resolveLoop_inv c.providers P _ (CleanKey c P t) Hpres
        f.params [] seen Δ0 seen'' hQ hl
      have hnotreq : ¬ Requires c.providers (extKeys c) P f t := by
        intro hreq
        cases hreq with
        | here f' n t' hmem =>
          obtain ⟨seen1, hQ1, hdisj⟩ := hproc ⟨n, Ann.ty t⟩ hmem t rfl
          rcases hdisj with hin | ⟨_, g, psteps, hlu, _⟩
          · exact hcleant n seen1 hQ1 hin
          · rw [hlu] at hlt; exact Option.noConfusion hlt
        | step f' n u t' g hmem hkext hlu hreq' =>
          obtain ⟨seen1, hQ1, hdisj⟩ := hproc ⟨n, Ann.ty u⟩ hmem u rfl
          rcases hdisj with hin | ⟨_, g2, psteps, hlu2, hr2⟩
          · rcases hQ1 _ hin with hk | ⟨u'', hu'', hk⟩ | ⟨u', g', n', hlu', hnreq', hk⟩
            · exact get_key_ne_empty u (some n) P (hgoodreg u g hlu) hk
            · apply hkext
              obtain ⟨nt, hnt, hnt2⟩ := List.mem_map.mp hu''
              refine List.mem_map.mpr ⟨nt, hnt, ?_⟩
              rw [hnt2, ← hk]
            · have hueq : u = u' := by
                refine get_key_inj u u' (some n) (some n') P (hgoodreg u g hlu)
                  (hgoodreg u' g' hlu') ?_ hk
                exact hnice.2 u
                  (List.mem_cons_of_mem _ (List.mem_append_left _ (mem_of_lookup hlu)))
                  u' (List.mem_cons_of_mem _ (List.mem_append_left _ (mem_of_lookup hlu')))
              rw [hueq, hlu'] at hlu
              injection hlu with hg
              exact hnreq' (hg ▸ hreq')
          · rw [hlu2] at hlu
            injection hlu with hg
            have hreq2 : Requires c.providers (extKeys c) P g2 t := by
              rw [hg]; exact hreq'
            exact (ih g2 (some u) (some n) seen1 psteps (Or.inr ⟨u, n, rfl, rfl, hlu2⟩)
              hQ1 hr2).1 hreq2
      refine ⟨hnotreq, ?_⟩
      rw [← h]
      intro k hkm
      rw [List.map_append, List.mem_append] at hkm
      rcases hkm with hkm | hkm
      · -- inner keys all entered the final seen set of the loop
        obtain ⟨Δ, h1, h2, _, _, _, _⟩ :=
          resolveLoop_ok c P _
            (fun g t' n s1 st1 _ _ hr => create_steps_ok c P fuel g (some t') (some n) s1 st1 hr)
            f.params [] seen Δ0 seen'' hl
        rw [List.nil_append] at h1
        apply hQ''
        rw [h2]
        rw [h1] at hkm
        exact List.mem_append_right _ hkm
      · rcases List.mem_singleton.mp hkm with hkm
        subst hkm
        rcases hpt with hptn | ⟨u, n0, hu, hn, hlf⟩
        · rw [hptn]
          exact Or.inl (by simp [create_step, get_key])
        · rw [hu, hn]
          refine Or.inr (Or.inr ⟨u, f, n0, hlf, hnotreq, ?_⟩)
          simp [create_step]

theorem resolveLoop_no_fuel
    (recur : FuncSig → String → String → List String → Except BErr (List Step))
    (providers : List (String × FuncSig)) (P : List String) :
    ∀ (ps : List Param) (acc : List Step) (seen : List String),
      (∀ p ∈ ps, ∀ w, p.ann = Ann.ty w → ∀ g, List.lookup w providers = some g →
        ∀ seen1, recur g w p.name seen1 ≠ .error .outOfFuel) →
      resolveLoop recur providers P ps acc seen ≠ .error .outOfFuel := by
  intro ps
  induction ps with
  | nil => intro acc seen _ h; simp [resolveLoop] at h
  | cons p rest ih =>
    intro acc seen hb h
    have hbrest : ∀ p ∈ rest, ∀ w, p.ann = Ann.ty w → ∀ g, List.lookup w providers = some g →
        ∀ seen1, recur g w p.name seen1 ≠ .error .outOfFuel :=
      fun q hq => hb q (List.mem_cons_of_mem _ hq)
    cases hann : p.ann with
    | pname =>
      simp only [resolveLoop, hann] at h
      exact ih acc seen hbrest h
    | ty w =>
      simp only [resolveLoop, hann] at h
      by_cases hk : get_key (some w) (some p.name) P ∈ seen
      · rw [if_pos hk] at h
        exact ih acc seen hbrest h
      · rw [if_neg hk] at h
        cases hl : List.lookup w providers with
        | none => simp only [hl] at h; exact BErr.noConfusion (Except.error.inj h)
        | some g =>
          simp only [hl] at h
          cases hr : recur g w p.name seen with
          | error e =>
            simp only [hr] at h
            have he : e = BErr.outOfFuel := Except.error.inj h
            exact hb p (List.mem_cons_self _ _) w hann g hl seen (he ▸ hr)
          | ok psteps =>
            simp only [hr] at h
            exact ih (acc ++ psteps) (seen ++ psteps.map Step.output_key) hbrest h

theorem create_steps_no_fuel (c : Ctx) (P : List String) (rank : String → Nat)
    (hrank : RankOK rank c.providers) :
    ∀ (fuel : Nat) (f : FuncSig) (pt pn : Option String) (seen : List String),
      ((pt = none ∧ 0 < fuel ∧
          (∀ p ∈ f.params, ∀ w, p.ann = Ann.ty w →
            (List.lookup w c.providers).isSome → rank w + 1 < fuel)) ∨
       (∃ u, pt = some u ∧ List.lookup u c.providers = some f ∧ rank u < fuel)) →
      create_steps c P fuel f pt pn seen ≠ .error .outOfFuel := by
  intro fuel
  induction fuel with
  | zero =>
    intro f pt pn seen hf
    rcases hf with ⟨_, hpos, _⟩ | ⟨u, _, _, hru⟩
    · exact absurd hpos (Nat.lt_irrefl 0)
    · exact absurd hru (Nat.not_lt_zero _)
  | succ fuel ih =>
    intro f pt pn seen hf h
    simp only [create_steps] at h
    have hbound : ∀ p ∈ f.params, ∀ w, p.ann = Ann.ty w →
        ∀ g, List.lookup w c.providers = some g → rank w < fuel := by
      intro p hp w hw g hg
      rcases hf with ⟨_, _, hb⟩ | ⟨u, _, hlu, hru⟩
      · have := hb p hp w hw (by rw [hg]; rfl)
        omega
      · have := hrank (u, f) (lookup_mem hlu) p hp
        rw [hw] at this
        have hlt : rank w < rank u := of_decide_eq_true this
        omega
    cases hl : resolveLoop (fun g t' n s => create_steps c P fuel g (some t') (some n) s)
        c.providers P f.params [] seen with
    | error e =>
      rw [hl] at h
      have he : e = BErr.outOfFuel := Except.error.inj h
      subst he
      refine resolveLoop_no_fuel _ c.providers P f.params [] seen ?_ hl
      intro p hp w hw g hg seen1
      exact ih g (some w) (some p.name) seen1 (Or.inr ⟨w, rfl, hg, hbound p hp w hw g hg⟩)
    | ok pr =>
      obtain ⟨Δ0, seen''⟩ := pr
      simp only [hl] at h
      exact Except.noConfusion h

/-- Fuel-adequacy of a parameter annotation at the top level, as a decidable
check: either the marker, an unprovided type, or a provided type whose rank
leaves room in the fuel. -/
def annFuelOkB (c : Ctx) (rank : String → Nat) (fuel : Nat) : Ann → Bool
  | .pname => true
  | .ty w => !(List.lookup w c.providers).isSome || decide (rank w + 1 < fuel)

/-- C6: a target that transitively requires a type with no registered
provider, not declared as externally-supplied state, never builds a plan
(for any fuel), and the build fails with `UnresolvedDependency` (the
`assert param.annotation in providers` failure). -/
theorem C6_unresolved_dependency (c : Ctx) (fuel : Nat) (f : FuncSig) (t : String)
    (rank : String → Nat)
    (hnice : NiceNames (t :: ctxTypes c))
    (hrank : RankOK rank c.providers)
    (hlt : List.lookup t c.providers = none)
    (hnr : t ∉ c.required_state.map Prod.snd)
    (hreq : Requires c.providers (extKeys c) (parameterized_types c) f t)
    (hfuel : 0 < fuel)
    (hbound : ∀ p ∈ f.params, annFuelOkB c rank fuel p.ann = true) :
    (∀ fuel' inj, inject c fuel' f ≠ .ok inj) ∧
    (∃ u, inject c fuel f = .error (.unresolvedDependency u)) := by
  have hseed : ∀ k ∈ c.required_state.map (fun nt => get_key (some nt.2) none []),
      CleanKey c (parameterized_types c) t k := by
    intro k hk
    obtain ⟨nt, hnt, hkey⟩ := List.mem_map.mp hk
    exact Or.inr (Or.inl ⟨nt.2, List.mem_map.mpr ⟨nt, hnt, rfl⟩, hkey.symm⟩)
  have hnoplan : ∀ fuel' inj, inject c fuel' f ≠ .ok inj := by
    intro fuel' inj hok
    have hc := (inject_ok_create_steps c fuel' f inj hok).1
    exact (create_steps_not_requires c (parameterized_types c) t hnice hlt hnr
      fuel' f none none _ _ (Or.inl rfl) hseed hc).1 hreq
  refine ⟨hnoplan, ?_⟩
  have hres : inject c fuel f = (match create_steps c (parameterized_types c) fuel f none none
      (c.required_state.map (fun nt => get_key (some nt.2) none [])) with
    | .error e => .error e
    | .ok steps =>
      .ok ⟨steps, c.required_state.map (fun nt => (nt.1, get_key (some nt.2) none []))⟩) := rfl
  cases hc : create_steps c (parameterized_types c) fuel f none none
      (c.required_state.map (fun nt => get_key (some nt.2) none [])) with
  | ok steps =>
    exfalso
    refine hnoplan fuel
      ⟨steps, c.required_state.map (fun nt => (nt.1, get_key (some nt.2) none []))⟩ ?_
    rw [hres, hc]
  | error e =>
    cases e with
    | outOfFuel =>
      exfalso
      refine create_steps_no_fuel c (parameterized_types c) rank hrank fuel f none none _
        (Or.inl ⟨rfl, hfuel, ?_⟩) hc
      intro p hp w hw hsome
      have hb := hbound p hp
      rw [hw] at hb
      rw [annFuelOkB] at hb
      simp only [Bool.or_eq_true] at hb
      rcases hb with h1 | h1
      · rw [hsome] at h1; simp at h1
      · exact of_decide_eq_true h1
    | unresolvedDependency u =>
      refine ⟨u, ?_⟩
      rw [hres, hc]

/-- A provider `fa(b: B) -> A` whose input type `B` is unprovided. -/
def fProvWA : FuncSig := ⟨21, [⟨"b", .ty "B"⟩]⟩

/-- A target `fw(x: A)` that transitively requires the unprovided `B`. -/
def fTargetW : FuncSig := ⟨22, [⟨"x", .ty "A"⟩]⟩

/-- A registry providing `A` but not `B`, with no external state. -/
def ctxW : Ctx := ⟨[("A", fProvWA)], [], []⟩

/-- A rank function certifying that the `ctxW` registry is acyclic. -/
def rankW : String → Nat := fun s => if s = "A" then 1 else 0

/-- Witness for C6: building the `fTargetW` plan fails with
`UnresolvedDependency` because `B` has no provider and is not external. -/
theorem C6_unresolved_dependency_witness :
    ∃ u, inject ctxW 5 fTargetW = .error (.unresolvedDependency u) :=
  (C6_unresolved_dependency ctxW 5 fTargetW "B" rankW (by decide) (by decide) (by decide)
    (by decide)
    (Requires.step fTargetW "x" "A" "B" fProvWA (by decide) (by decide) (by decide)
      (Requires.here fProvWA "b" "B" (by decide)))
    (by decide) (by decide)).2

/-! Section: Resource discipline of the executor. -/

/-- The acquisition events of a trace, in order. -/
def entersOf : List Ev → List Nat
  | [] => []
  | Ev.acquire i :: rest => i :: entersOf rest
  | Ev.call _ :: rest => entersOf rest
  | Ev.release _ :: rest => entersOf rest

/-- The release events of a trace, in order. -/
def releasesOf : List Ev → List Nat
  | [] => []
  | Ev.release i :: rest => i :: releasesOf rest
  | Ev.call _ :: rest => releasesOf rest
  | Ev.acquire i :: rest => releasesOf rest

theorem entersOf_append (a b : List Ev) : entersOf (a ++ b) = entersOf a ++ entersOf b := by
  induction a with
  | nil => rfl
  | cons e rest ih => cases e <;> simp [entersOf, ih]

theorem releasesOf_append (a b : List Ev) :
    releasesOf (a ++ b) = releasesOf a ++ releasesOf b := by
  induction a with
  | nil => rfl
  | cons e rest ih => cases e <;> simp [releasesOf, ih]

theorem entersOf_releases (l : List Nat) : entersOf (l.map Ev.release) = [] := by
  induction l with
  | nil => rfl
  | cons i rest ih => simp [entersOf, ih]

theorem releasesOf_releases (l : List Nat) : releasesOf (l.map Ev.release) = l := by
  induction l with
  | nil => rfl
  | cons i rest ih => simp [releasesOf, ih]

theorem releasesOf_eq_nil (body : List Ev) (h : ∀ i, Ev.release i ∉ body) :
    releasesOf body = [] := by
  induction body with
  | nil => rfl
  | cons e rest ih =>
    have hrest : ∀ i, Ev.release i ∉ rest := fun i hi => h i (List.mem_cons_of_mem _ hi)
    cases e with
    | release i => exact absurd (List.mem_cons_self _ _) (h i)
    | call fid => simpa [releasesOf] using ih hrest
    | acquire i => simpa [releasesOf] using ih hrest

theorem execSteps_shape (impl : Impl) :
    ∀ (steps : List (Nat × Step)) (state : List (String × Val)) (ret : Val)
      (tr : List Ev) (acq : List Nat),
      (steps.map Prod.fst).Nodup →
      ∃ body, (execSteps impl steps state ret tr acq).1 =
          tr ++ body ++ ((entersOf body).reverse ++ acq).map Ev.release ∧
        (∀ i, Ev.release i ∉ body) ∧
        (∀ i ∈ entersOf body, i ∈ steps.map Prod.fst) ∧
        (entersOf body).Nodup := by
  intro steps
  induction steps with
  | nil =>
    intro state ret tr acq _
    exact ⟨[], by simp [execSteps, entersOf], by simp, by simp [entersOf], by simp [entersOf]⟩
  | cons is rest ih =>
    obtain ⟨i, s⟩ := is
    intro state ret tr acq hnd
    rw [List.map_cons, List.nodup_cons] at hnd
    cases hkw : buildKwargs state s with
    | error k =>
      refine ⟨[], ?_, by simp, by simp [entersOf], by simp [entersOf]⟩
      simp [execSteps, hkw, entersOf]
    | ok kws =>
      cases himp : impl s.func.fid kws with
      | none =>
        refine ⟨[Ev.call s.func.fid], ?_, by simp, by simp [entersOf], by simp [entersOf]⟩
        simp [execSteps, hkw, himp, entersOf]
      | some v =>
        by_cases hcm : s.is_context_manager
        · obtain ⟨body', h1, h2, h3, h4⟩ := ih ((s.output_key, v) :: state) v
            (tr ++ [Ev.call s.func.fid, Ev.acquire i]) (i :: acq) hnd.2
          refine ⟨[Ev.call s.func.fid, Ev.acquire i] ++ body', ?_, ?_, ?_, ?_⟩
          · have hexec : (execSteps impl ((i, s) :: rest) state ret tr acq).1 =
                (execSteps impl rest ((s.output_key, v) :: state) v
                  (tr ++ [Ev.call s.func.fid, Ev.acquire i]) (i :: acq)).1 := by
              simp [execSteps, hkw, himp, hcm]
            rw [hexec, h1]
            simp [entersOf_append, entersOf, List.append_assoc]
          · intro j hj
            rcases List.mem_cons.mp hj with hj | hj
            · exact Ev.noConfusion hj
            · rcases List.mem_cons.mp hj with hj | hj
              · exact Ev.noConfusion hj
              · exact h2 j hj
          · intro j hj
            rw [entersOf_append] at hj
            rcases List.mem_append.mp hj with hj | hj
            · simp [entersOf] at hj
              simp [hj]
            · exact List.mem_cons_of_mem _ (h3 j hj)
          · rw [entersOf_append]
            have he2 : entersOf [Ev.call s.func.fid, Ev.acquire i] = [i] := by simp [entersOf]
            rw [he2, List.singleton_append, List.nodup_cons]
            exact ⟨fun hc => hnd.1 (h3 i hc), h4⟩
        · obtain ⟨body', h1, h2, h3, h4⟩ := ih ((s.output_key, v) :: state) v
            (tr ++ [Ev.call s.func.fid]) acq hnd.2
          refine ⟨[Ev.call s.func.fid] ++ body', ?_, ?_, ?_, ?_⟩
          · have hexec : (execSteps impl ((i, s) :: rest) state ret tr acq).1 =
                (execSteps impl rest ((s.output_key, v) :: state) v
                  (tr ++ [Ev.call s.func.fid]) acq).1 := by
              simp [execSteps, hkw, himp, hcm]
            rw [hexec, h1]
            simp [entersOf_append, entersOf, List.append_assoc]
          · intro j hj
            rcases List.mem_cons.mp hj with hj | hj
            · exact Ev.noConfusion hj
            · exact h2 j hj
          · intro j hj
            rw [entersOf_append] at hj
            rcases List.mem_append.mp hj with hj | hj
            · simp [entersOf] at hj
            · exact List.mem_cons_of_mem _ (h3 j hj)
          · rw [entersOf_append]
            simpa [entersOf] using h4

/-- C4: every run of a built plan — normal, failing at a missing input, or
failing inside a provider — produces a trace consisting of a release-free
body (all provider calls and acquisitions) followed by exactly one release
per acquired resource, in strict reverse order of acquisition.  So each
acquired resource is released exactly once, releases happen only after
every step that ran (in particular after all consumers of the resource),
and on a failure exactly the already-acquired resources are released before
the error is returned. -/
theorem C4_resource_discipline (impl : Impl) (inj : InjectedFunction)
    (state : Option (List (String × Val))) :
    ∃ body : List Ev,
      (callFn impl inj state).1 = body ++ (entersOf body).reverse.map Ev.release ∧
      (∀ i, Ev.release i ∉ body) ∧
      (entersOf body).Nodup ∧
      releasesOf (callFn impl inj state).1 = (entersOf (callFn impl inj state).1).reverse := by
  have hnd : (inj.steps.enum.map Prod.fst).Nodup := by
    rw [List.enum_map_fst]
    exact List.nodup_range _
  have main : ∀ st0 : List (String × Val),
      ∃ body : List Ev,
        (execSteps impl inj.steps.enum st0 .vnone [] []).1 =
          body ++ (entersOf body).reverse.map Ev.release ∧
        (∀ i, Ev.release i ∉ body) ∧
        (entersOf body).Nodup ∧
        releasesOf (execSteps impl inj.steps.enum st0 .vnone [] []).1 =
          (entersOf (execSteps impl inj.steps.enum st0 .vnone [] []).1).reverse := by
    intro st0
    obtain ⟨body, h1, h2, _, h4⟩ := execSteps_shape impl inj.steps.enum st0 .vnone [] [] hnd
    rw [List.nil_append, List.append_nil] at h1
    refine ⟨body, h1, h2, h4, ?_⟩
    rw [h1, releasesOf_append, entersOf_append, releasesOf_eq_nil body h2,
      releasesOf_releases, entersOf_releases, List.append_nil, List.nil_append]
  cases state with
  | none =>
    simpa [callFn] using main []
  | some st =>
    cases hr : remapState inj.state_key_mapping st with
    | error e =>
      refine ⟨[], ?_, by simp, by simp [entersOf], ?_⟩
      · simp [callFn, hr, entersOf]
      · simp [callFn, hr, entersOf, releasesOf]
    | ok st' =>
      have := main st'
      simpa [callFn, hr] using this

/-! Section: ParamName handling. -/

theorem resolveLoop_filter_pname
    (recur : FuncSig → String → String → List String → Except BErr (List Step))
    (providers : List (String × FuncSig)) (P : List String) :
    ∀ (ps : List Param) (acc : List Step) (seen : List String),
      resolveLoop recur providers P (ps.filter (fun p => !(isPN p.ann))) acc seen =
      resolveLoop recur providers P ps acc seen := by
  intro ps
  induction ps with
  | nil => intro acc seen; rfl
  | cons p rest ih =>
    intro acc seen
    cases hann : p.ann with
    | pname =>
      have hf : (p :: rest).filter (fun p => !(isPN p.ann)) =
          rest.filter (fun p => !(isPN p.ann)) := by
        simp [List.filter_cons, isPN, hann]
      rw [hf, ih]
      simp [resolveLoop, hann]
    | ty t =>
      have hf : (p :: rest).filter (fun p => !(isPN p.ann)) =
          p :: rest.filter (fun p => !(isPN p.ann)) := by
        simp [List.filter_cons, isPN, hann]
      rw [hf]
      simp only [resolveLoop, hann]
      by_cases hk : get_key (some t) (some p.name) P ∈ seen
      · rw [if_pos hk, if_pos hk, ih]
      · rw [if_neg hk, if_neg hk]
        cases hl : List.lookup t providers with
        | none => simp
        | some g =>
          cases hr : recur g t p.name seen with
          | error e => simp [hr]
          | ok psteps => simp only [hr]; exact ih _ _

theorem create_step_pname_facts (c : Ctx) (P : List String) (g : FuncSig)
    (pt' pn' : Option String) (a : String)
    (hnd : (g.params.map Param.name).Nodup)
    (ha : (a, Ann.pname) ∈ (create_step c P g pt' pn').input_types) :
    (∀ k, (a, k) ∉ (create_step c P g pt' pn').input_keys) ∧
    ∃ m, (create_step c P g pt' pn').param_names = some m ∧ (a, pn') ∈ m ∧
      (∀ b x, (b, x) ∈ m → x = pn') := by
  simp only [create_step, List.mem_map] at ha
  obtain ⟨p, hp, hpe⟩ := ha
  have hpa : p.name = a := congrArg Prod.fst hpe
  have hpann : p.ann = Ann.pname := congrArg Prod.snd hpe
  constructor
  · intro k hk
    simp only [create_step, List.mem_map] at hk
    obtain ⟨q, hq, hqe⟩ := hk
    have hqf := List.mem_filter.mp hq
    have hqa : q.name = a := congrArg Prod.fst hqe
    have hqp : q = p :=
      List.inj_on_of_nodup_map hnd hqf.1 hp (by rw [hqa, hpa])
    rw [hqp, hpann] at hqf
    simp [isPN] at hqf
  · have hne : g.params.filter (fun p => isPN p.ann) ≠ [] := by
      intro hnil
      have : p ∈ g.params.filter (fun p => isPN p.ann) :=
        List.mem_filter.mpr ⟨hp, by simp [isPN, hpann]⟩
      rw [hnil] at this
      cases this
    refine ⟨(g.params.filter (fun p => isPN p.ann)).map (fun p => (p.name, pn')), ?_, ?_, ?_⟩
    · simp only [create_step]
      rw [if_neg hne]
    · refine List.mem_map.mpr ⟨p, List.mem_filter.mpr ⟨hp, by simp [isPN, hpann]⟩, ?_⟩
      rw [hpa]
    · intro b x hbx
      obtain ⟨q, _, hqe⟩ := List.mem_map.mp hbx
      exact (congrArg Prod.snd hqe).symm

/-- C8: `ParamName`-annotated parameters are never resolved against the
registry and never enter the seen-key set (resolution is unchanged if they
are dropped); each is recorded as a param-name binding on its step, bound to
the requesting caller's own parameter name (the name suffixing the step's
output key), and at run time the provider is invoked with that parameter
bound to the logical name as its value. -/
theorem C8_param_name_binding (c : Ctx) (fuel : Nat) (f : FuncSig) (inj : InjectedFunction)
    (h : inject c fuel f = .ok inj)
    (hwf : ∀ tf ∈ c.providers, (tf.2.params.map Param.name).Nodup)
    (hwt : (f.params.map Param.name).Nodup) :
    (∀ (recur : FuncSig → String → String → List String → Except BErr (List Step))
        (ps : List Param) (acc : List Step) (seen : List String),
      resolveLoop recur c.providers (parameterized_types c)
        (ps.filter (fun p => !(isPN p.ann))) acc seen =
      resolveLoop recur c.providers (parameterized_types c) ps acc seen) ∧
    (∀ S ∈ inj.steps, ∀ a, (a, Ann.pname) ∈ S.input_types →
      (∀ k, (a, k) ∉ S.input_keys) ∧
      ∃ m pnv, S.param_names = some m ∧ (a, pnv) ∈ m ∧ (∀ b x, (b, x) ∈ m → x = pnv) ∧
        ((S.output_key = "" ∧ pnv = none) ∨
         (∃ t g n, List.lookup t c.providers = some g ∧ pnv = some n ∧
           S.output_key = get_key (some t) (some n) (parameterized_types c)))) ∧
    (∀ S ∈ inj.steps, ∀ (state kws : List (String × Val)),
      buildKwargs state S = .ok kws →
      ∀ a, (a, Ann.pname) ∈ S.input_types →
        ∃ m pnv, S.param_names = some m ∧ (a, pnv) ∈ m ∧ (a, optNameVal pnv) ∈ kws) := by
  have hc := (inject_ok_create_steps c fuel f inj h).1
  obtain ⟨⟨pre, hpre, hsh⟩, _, _⟩ :=
    create_steps_ok c (parameterized_types c) fuel f none none _ _ hc
  have hstep : ∀ S ∈ inj.steps, ∀ a, (a, Ann.pname) ∈ S.input_types →
      (∀ k, (a, k) ∉ S.input_keys) ∧
      ∃ m pnv, S.param_names = some m ∧ (a, pnv) ∈ m ∧ (∀ b x, (b, x) ∈ m → x = pnv) ∧
        ((S.output_key = "" ∧ pnv = none) ∨
         (∃ t g n, List.lookup t c.providers = some g ∧ pnv = some n ∧
           S.output_key = get_key (some t) (some n) (parameterized_types c))) := by
    intro S hS a ha
    rw [hpre] at hS
    rcases List.mem_append.mp hS with hS | hS
    · obtain ⟨t, g, n, hlg, rfl⟩ := hsh S hS
      have hndg : (g.params.map Param.name).Nodup := hwf (t, g) (lookup_mem hlg)
      obtain ⟨h1, m, h2, h3, h4⟩ :=
        create_step_pname_facts c (parameterized_types c) g (some t) (some n) a hndg ha
      exact ⟨h1, m, some n, h2, h3, h4, Or.inr ⟨t, g, n, hlg, rfl, by simp [create_step]⟩⟩
    · rcases List.mem_singleton.mp hS with rfl
      obtain ⟨h1, m, h2, h3, h4⟩ :=
        create_step_pname_facts c (parameterized_types c) f none none a hwt ha
      exact ⟨h1, m, none, h2, h3, h4, Or.inl ⟨by simp [create_step, get_key], rfl⟩⟩
  refine ⟨fun recur => resolveLoop_filter_pname recur c.providers (parameterized_types c),
    hstep, ?_⟩
  intro S hS state kws hkw a ha
  obtain ⟨_, m, pnv, h2, h3, _, _⟩ := hstep S hS a ha
  refine ⟨m, pnv, h2, h3, ?_⟩
  rw [buildKwargs] at hkw
  cases hlk : lookupKeys state S.input_keys with
  | error e => rw [hlk] at hkw; exact Except.noConfusion hkw
  | ok base =>
    rw [hlk] at hkw
    simp only [Except.ok.injEq] at hkw
    rw [← hkw, h2]
    exact List.mem_append_right _
      (List.mem_map.mpr ⟨(a, pnv), h3, rfl⟩)

/-! Section: Run-time state errors. -/

theorem lookup_isSome_iff {β : Type} (a : String) (l : List (String × β)) :
    (List.lookup a l).isSome ↔ a ∈ l.map Prod.fst := by
  induction l with
  | nil => simp [List.lookup]
  | cons x xs ih =>
    rw [List.lookup]
    by_cases hx : a = x.1
    · have hbx : (a == x.1) = true := by simp [hx]
      simp [hbx, hx]
    · have hbx : (a == x.1) = false := by simp [hx]
      simp [hbx, hx, ih]

theorem remap_unknown (mapping : List (String × String)) :
    ∀ (st : List (String × Val)),
      (∃ nv ∈ st, nv.1 ∉ mapping.map Prod.fst) →
      ∃ n, n ∉ mapping.map Prod.fst ∧
        remapState mapping st = .error (.unknownStateName n) := by
  intro st
  induction st with
  | nil => rintro ⟨nv, hm, _⟩; cases hm
  | cons nv rest ih =>
    obtain ⟨n0, v0⟩ := nv
    rintro ⟨nv', hm', hn'⟩
    by_cases h0 : n0 ∈ mapping.map Prod.fst
    · have hrest : ∃ nv ∈ rest, nv.1 ∉ mapping.map Prod.fst := by
        rcases List.mem_cons.mp hm' with he | hm2
        · exact absurd (he ▸ h0) hn'
        · exact ⟨nv', hm2, hn'⟩
      obtain ⟨n, hne, herr⟩ := ih hrest
      obtain ⟨k, hk⟩ := Option.isSome_iff_exists.mp ((lookup_isSome_iff n0 mapping).mpr h0)
      exact ⟨n, hne, by simp [remapState, hk, herr]⟩
    · have hnone : List.lookup n0 mapping = none := by
        cases hl : List.lookup n0 mapping with
        | none => rfl
        | some k =>
          exact absurd ((lookup_isSome_iff n0 mapping).mp (by rw [hl]; rfl)) h0
      exact ⟨n0, h0, by simp [remapState, hnone]⟩

/-- C10: calling a built plan with a state mapping containing a name not
declared in `required_state` fails with a key-lookup error while remapping
the external inputs, before any step executes (the event trace is empty). -/
theorem C10_unknown_external_name (c : Ctx) (fuel : Nat) (f : FuncSig) (inj : InjectedFunction)
    (h : inject c fuel f = .ok inj) (impl : Impl)
    (st : List (String × Val)) (y : String) (v : Val)
    (hy : (y, v) ∈ st) (hyn : y ∉ c.required_state.map Prod.fst) :
    ∃ n, n ∉ c.required_state.map Prod.fst ∧
      callFn impl inj (some st) = ([], .error (.unknownStateName n)) := by
  have hmap := (inject_ok_create_steps c fuel f inj h).2
  have hnames : inj.state_key_mapping.map Prod.fst = c.required_state.map Prod.fst := by
    rw [hmap, List.map_map]
    rfl
  obtain ⟨n, hn, herr⟩ := remap_unknown inj.state_key_mapping st
    ⟨(y, v), hy, by rw [hnames]; exact hyn⟩
  refine ⟨n, by rw [← hnames]; exact hn, ?_⟩
  simp [callFn, herr]

theorem lookup_map_self {β γ : Type} (F : String × β → γ) :
    ∀ (l : List (String × β)) (p : String × β), (l.map Prod.fst).Nodup → p ∈ l →
      List.lookup p.1 (l.map (fun q => (q.1, F q))) = some (F p) := by
  intro l
  induction l with
  | nil => intro p _ hp; cases hp
  | cons x xs ih =>
    intro p hnd hp
    rw [List.map_cons, List.nodup_cons] at hnd
    rcases List.mem_cons.mp hp with rfl | hp
    · simp [List.lookup]
    · have hne : (p.1 == x.1) = false := by
        simp only [beq_eq_false_iff_ne, ne_eq]
        intro he
        exact hnd.1 (he ▸ List.mem_map.mpr ⟨p, hp, rfl⟩)
      rw [List.map_cons, List.lookup]
      simp only [hne]
      exact ih p hnd.2 hp

theorem remapState_ok (mapping : List (String × String)) :
    ∀ (st : List (String × Val)),
      (∀ nv ∈ st, nv.1 ∈ mapping.map Prod.fst) →
      ∃ st', remapState mapping st = .ok st' ∧
        (∀ k, k ∈ st'.map Prod.fst ↔ ∃ nv ∈ st, List.lookup nv.1 mapping = some k) := by
  intro st
  induction st with
  | nil => intro _; exact ⟨[], rfl, by simp⟩
  | cons nv rest ih =>
    obtain ⟨n0, v0⟩ := nv
    intro hin
    obtain ⟨k0, hk0⟩ := Option.isSome_iff_exists.mp
      ((lookup_isSome_iff n0 mapping).mpr (hin (n0, v0) (List.mem_cons_self _ _)))
    obtain ⟨st'', hok, hiff⟩ := ih (fun nv hnv => hin nv (List.mem_cons_of_mem _ hnv))
    refine ⟨st'' ++ [(k0, v0)], by simp [remapState, hk0, hok], ?_⟩
    intro k
    rw [List.map_append, List.mem_append]
    constructor
    · rintro (hk | hk)
      · obtain ⟨nv, hnv, hl⟩ := (hiff k).mp hk
        exact ⟨nv, List.mem_cons_of_mem _ hnv, hl⟩
      · simp at hk
        exact ⟨(n0, v0), List.mem_cons_self _ _, hk ▸ hk0⟩
    · rintro ⟨nv, hnv, hl⟩
      rcases List.mem_cons.mp hnv with rfl | hnv
      · right
        rw [hk0] at hl
        simp at hl ⊢
        exact hl.symm
      · exact Or.inl ((hiff k).mpr ⟨nv, hnv, hl⟩)

theorem lookupKeys_ok (state : List (String × Val)) :
    ∀ (iks : List (String × String)), (∀ ak ∈ iks, ak.2 ∈ state.map Prod.fst) →
      ∃ kws, lookupKeys state iks = .ok kws := by
  intro iks
  induction iks with
  | nil => intro _; exact ⟨[], rfl⟩
  | cons ak rest ih =>
    obtain ⟨a, k⟩ := ak
    intro hin
    obtain ⟨v, hv⟩ := Option.isSome_iff_exists.mp
      ((lookup_isSome_iff k state).mpr (hin (a, k) (List.mem_cons_self _ _)))
    obtain ⟨kws, hkws⟩ := ih (fun ak hak => hin ak (List.mem_cons_of_mem _ hak))
    exact ⟨(a, v) :: kws, by simp [lookupKeys, hv, hkws]⟩

theorem lookupKeys_missing (state : List (String × Val)) (kx : String)
    (hkx : kx ∉ state.map Prod.fst) :
    ∀ (iks : List (String × String)),
      (∀ ak ∈ iks, ak.2 = kx ∨ ak.2 ∈ state.map Prod.fst) →
      (∃ ak ∈ iks, ak.2 = kx) →
      lookupKeys state iks = .error kx := by
  have hnone : List.lookup kx state = none := by
    cases hl : List.lookup kx state with
    | none => rfl
    | some v => exact absurd ((lookup_isSome_iff kx state).mp (by rw [hl]; rfl)) hkx
  intro iks
  induction iks with
  | nil => rintro _ ⟨ak, hak, _⟩; cases hak
  | cons ak rest ih =>
    obtain ⟨a, k⟩ := ak
    rintro hall hex
    by_cases hk : k = kx
    · subst hk
      simp [lookupKeys, hnone]
    · rcases hall (a, k) (List.mem_cons_self _ _) with he | hmem
      · exact absurd he hk
      · obtain ⟨v, hv⟩ := Option.isSome_iff_exists.mp ((lookup_isSome_iff k state).mpr hmem)
        have hex' : ∃ ak ∈ rest, ak.2 = kx := by
          obtain ⟨ak', hak', he'⟩ := hex
          rcases List.mem_cons.mp hak' with rfl | hak'
          · exact absurd he' hk
          · exact ⟨ak', hak', he'⟩
        have := ih (fun ak hak => hall ak (List.mem_cons_of_mem _ hak)) hex'
        simp [lookupKeys, hv, this]

theorem execSteps_missing (impl : Impl) (himpl : ∀ fid kws, (impl fid kws).isSome) (kx : String) :
    ∀ (steps : List (Nat × Step)) (seen : List String) (state : List (String × Val))
      (ret : Val) (tr : List Ev) (acq : List Nat),
      StepsTopo seen (steps.map Prod.snd) →
      (∀ k ∈ seen, k ≠ kx → k ∈ state.map Prod.fst) →
      kx ∉ state.map Prod.fst →
      (∀ p ∈ steps, (Prod.snd p).output_key ≠ kx) →
      (∃ p ∈ steps, ∃ a, (a, kx) ∈ (Prod.snd p).input_keys) →
      ∃ tr', execSteps impl steps state ret tr acq = (tr', .error (.missingState kx)) := by
  intro steps
  induction steps with
  | nil =>
    rintro seen state ret tr acq _ _ _ _ ⟨p, hp, _⟩
    cases hp
  | cons is rest ih =>
    obtain ⟨i, s⟩ := is
    intro seen state ret tr acq htopo hcover hkx houts hex
    rw [List.map_cons] at htopo
    by_cases hco : ∃ ak ∈ s.input_keys, ak.2 = kx
    · have hall : ∀ ak ∈ s.input_keys, ak.2 = kx ∨ ak.2 ∈ state.map Prod.fst := by
        intro ak hak
        by_cases he : ak.2 = kx
        · exact Or.inl he
        · exact Or.inr (hcover ak.2 (htopo.1 ak hak) he)
      have hlk := lookupKeys_missing state kx hkx s.input_keys hall hco
      have hbk : buildKwargs state s = .error kx := by
        rw [buildKwargs, hlk]
      exact ⟨tr ++ acq.map Ev.release, by simp [execSteps, hbk]⟩
    · have hall : ∀ ak ∈ s.input_keys, ak.2 ∈ state.map Prod.fst := by
        intro ak hak
        rcases hcover ak.2 (htopo.1 ak hak) (fun he => hco ⟨ak, hak, he⟩) with hmem
        exact hmem
      obtain ⟨kws0, hkws0⟩ := lookupKeys_ok state s.input_keys hall
      have hbk : ∃ kws, buildKwargs state s = .ok kws := by
        rw [buildKwargs, hkws0]
        exact ⟨_, rfl⟩
      obtain ⟨kws, hkw⟩ := hbk
      obtain ⟨v, hv⟩ := Option.isSome_iff_exists.mp (himpl s.func.fid kws)
      have hsne : s.output_key ≠ kx := houts (i, s) (List.mem_cons_self _ _)
      have hcover' : ∀ k ∈ seen ++ [s.output_key], k ≠ kx →
          k ∈ ((s.output_key, v) :: state).map Prod.fst := by
        intro k hk hkne
        rcases List.mem_append.mp hk with hk | hk
        · exact List.mem_cons_of_mem _ (hcover k hk hkne)
        · rcases List.mem_singleton.mp hk with rfl
          exact List.mem_cons_self _ _
      have hkx' : kx ∉ ((s.output_key, v) :: state).map Prod.fst := by
        intro hc
        rcases List.mem_cons.mp hc with hc | hc
        · exact hsne hc.symm
        · exact hkx hc
      have hex' : ∃ p ∈ rest, ∃ a, (a, kx) ∈ (Prod.snd p).input_keys := by
        obtain ⟨p, hp, a, hak⟩ := hex
        rcases List.mem_cons.mp hp with rfl | hp
        · exact absurd ⟨(a, kx), hak, rfl⟩ hco
        · exact ⟨p, hp, a, hak⟩
      have houts' : ∀ p ∈ rest, (Prod.snd p).output_key ≠ kx :=
        fun p hp => houts p (List.mem_cons_of_mem _ hp)
      by_cases hcm : s.is_context_manager
      · obtain ⟨tr', hrest⟩ := ih (seen ++ [s.output_key]) ((s.output_key, v) :: state) v
          (tr ++ [Ev.call s.func.fid, Ev.acquire i]) (i :: acq)
          htopo.2 hcover' hkx' houts' hex'
        exact ⟨tr', by simp [execSteps, hkw, hv, hcm]; exact hrest⟩
      · obtain ⟨tr', hrest⟩ := ih (seen ++ [s.output_key]) ((s.output_key, v) :: state) v
          (tr ++ [Ev.call s.func.fid]) acq
          htopo.2 hcover' hkx' houts' hex'
        exact ⟨tr', by simp [execSteps, hkw, hv, hcm]; exact hrest⟩

/-- C9: running a built plan with an external-inputs mapping that omits one
required external-input name whose key some step consumes fails with
`MissingState` for that key.  The run is a pure function of the plan and
the inputs, so the failure affects neither the plan nor later runs. -/
theorem C9_missing_state (c : Ctx) (fuel : Nat) (f : FuncSig) (inj : InjectedFunction)
    (h : inject c fuel f = .ok inj)
    (hnemp : "" ∉ extKeys c)
    (hnames : (c.required_state.map Prod.fst).Nodup)
    (hkeys : (c.required_state.map (fun nt => get_key (some nt.2) none [])).Nodup)
    (x tx : String) (hx : (x, tx) ∈ c.required_state)
    (impl : Impl) (himpl : ∀ fid kws, (impl fid kws).isSome)
    (st : List (String × Val))
    (hst1 : ∀ nv ∈ st, ∃ nt, nt ∈ c.required_state ∧ nv.1 = nt.1 ∧ nt.1 ≠ x)
    (hst2 : ∀ nt ∈ c.required_state, nt.1 ≠ x → nt.1 ∈ st.map Prod.fst)
    (S0 : Step) (hS0 : S0 ∈ inj.steps) (a0 : String)
    (hcons : (a0, get_key (some tx) none []) ∈ S0.input_keys) :
    ∃ tr, callFn impl inj (some st) =
      (tr, .error (.missingState (get_key (some tx) none []))) := by
  have hmap := (inject_ok_create_steps c fuel f inj h).2
  have hc := (inject_ok_create_steps c fuel f inj h).1
  have hfo := create_steps_ok c (parameterized_types c) fuel f none none _ _ hc
  have hkxext : get_key (some tx) none [] ∈ extKeys c :=
    List.mem_map.mpr ⟨(x, tx), hx, rfl⟩
  have hkxne : get_key (some tx) none [] ≠ "" := by
    intro he
    exact hnemp (he ▸ hkxext)
  -- remapping the partial state succeeds
  obtain ⟨st', hok, hiff⟩ := remapState_ok inj.state_key_mapping st (by
    intro nv hnv
    obtain ⟨nt, hnt, heq, _⟩ := hst1 nv hnv
    rw [hmap, List.map_map]
    have : nv.1 ∈ c.required_state.map Prod.fst := heq ▸ List.mem_map.mpr ⟨nt, hnt, rfl⟩
    simpa using this)
  -- the omitted key is absent from the remapped state
  have hkxst : get_key (some tx) none [] ∉ st'.map Prod.fst := by
    intro hc'
    obtain ⟨nv, hnv, hl⟩ := (hiff _).mp hc'
    obtain ⟨nt, hnt, heq, hne⟩ := hst1 nv hnv
    rw [hmap, heq] at hl
    rw [lookup_map_self (fun nt => get_key (some nt.2) none []) c.required_state nt hnames hnt] at hl
    have hnteq : nt = (x, tx) := by
      refine List.inj_on_of_nodup_map hkeys hnt hx ?_
      simpa using hl
    exact hne (by rw [hnteq])
  -- every other external key is present in the remapped state
  have hcover : ∀ k ∈ extKeys c, k ≠ get_key (some tx) none [] → k ∈ st'.map Prod.fst := by
    intro k hk hkne
    obtain ⟨nt, hnt, hkey⟩ := List.mem_map.mp hk
    by_cases hntx : nt.1 = x
    · exfalso
      have hnteq : nt = (x, tx) := by
        refine List.inj_on_of_nodup_map hnames hnt hx ?_
        simpa using hntx
      exact hkne (by rw [← hkey, hnteq])
    · obtain ⟨nv, hnv, hnveq⟩ := List.mem_map.mp (hst2 nt hnt hntx)
      refine (hiff k).mpr ⟨nv, hnv, ?_⟩
      rw [hmap, hnveq]
      rw [lookup_map_self (fun nt => get_key (some nt.2) none []) c.required_state nt hnames hnt]
      rw [hkey]
  -- no step produces the omitted key
  have houts : ∀ p ∈ inj.steps.enum, (Prod.snd p).output_key ≠ get_key (some tx) none [] := by
    intro p hp he
    have hmem : p.2 ∈ inj.steps := by
      have := List.mem_map_of_mem Prod.snd hp
      rwa [List.enum_map_snd] at this
    have : p.2.output_key ∈ inj.steps.map Step.output_key := List.mem_map.mpr ⟨p.2, hmem, rfl⟩
    have := hfo.2.2 _ this (by rw [he]; exact hkxext)
    rw [he] at this
    exact hkxne (by simpa [get_key] using this)
  -- some step consumes the omitted key
  have hex : ∃ p ∈ inj.steps.enum, ∃ a, (a, get_key (some tx) none []) ∈ (Prod.snd p).input_keys := by
    have : S0 ∈ inj.steps.enum.map Prod.snd := by rw [List.enum_map_snd]; exact hS0
    obtain ⟨p, hp, hpe⟩ := List.mem_map.mp this
    exact ⟨p, hp, a0, hpe ▸ hcons⟩
  have htopo : StepsTopo (extKeys c) (inj.steps.enum.map Prod.snd) := by
    rw [List.enum_map_snd]
    exact hfo.2.1
  obtain ⟨tr', hexec⟩ := execSteps_missing impl himpl (get_key (some tx) none [])
    inj.steps.enum (extKeys c) st' .vnone [] [] htopo hcover hkxst houts hex
  exact ⟨tr', by simp [callFn, hok]; exact hexec⟩

/-! Section: Concrete scenarios from the repository's tests. -/

/-- Signature of `get_method(environ: Environ) -> Method` from the tests. -/
def fGetMethod : FuncSig := ⟨1, [⟨"environ", .ty "Environ"⟩]⟩

/-- Signature of `get_headers(environ: Environ) -> Headers` from the tests. -/
def fGetHeaders : FuncSig := ⟨2, [⟨"environ", .ty "Environ"⟩]⟩

/-- Signature of `echo_method_and_headers(method: Method, headers: Headers)` from the tests. -/
def fEcho : FuncSig := ⟨3, [⟨"method", .ty "Method"⟩, ⟨"headers", .ty "Headers"⟩]⟩

/-- The injector configuration of scenario A (`test_injection`). -/
def ctxA : Ctx := ⟨[("Method", fGetMethod), ("Headers", fGetHeaders)], [("environ", "Environ")], []⟩

/-- The plan scenario A builds. -/
def planA : InjectedFunction :=
  match inject ctxA 10 fEcho with
  | .ok p => p
  | .error _ => ⟨[], []⟩

/-- Witness for C1 at scenario A: the build succeeds and the plan it returns
is topologically ordered over the external key `environ`. -/
theorem C1_topological_order_witness :
    inject ctxA 10 fEcho = .ok planA ∧
    (∀ i, (hi : i < planA.steps.length) → ∀ ak ∈ planA.steps[i].input_keys,
      ak.2 ∈ ctxA.required_state.map (fun nt => get_key (some nt.2) none []) ∨
      ∃ j, ∃ hj : j < planA.steps.length, j < i ∧ planA.steps[j].output_key = ak.2) :=
  ⟨rfl, C1_topological_order ctxA 10 fEcho planA rfl⟩

/-- Signature of `get_lookup(name: ParamName, lookups: Lookups) -> Lookup` from `test_param_name`. -/
def fGetLookup : FuncSig := ⟨4, [⟨"name", .pname⟩, ⟨"lookups", .ty "Lookups"⟩]⟩

/-- Signature of `make_lookups(a: Lookup, b: Lookup)` from `test_param_name`. -/
def fMakeLookups : FuncSig := ⟨5, [⟨"a", .ty "Lookup"⟩, ⟨"b", .ty "Lookup"⟩]⟩

/-- The injector configuration of scenario C (`test_param_name`). -/
def ctxC : Ctx := ⟨[("Lookup", fGetLookup)], [("lookups", "Lookups")], []⟩

/-- The plan scenario C builds. -/
def planC : InjectedFunction :=
  match inject ctxC 10 fMakeLookups with
  | .ok p => p
  | .error _ => ⟨[], []⟩

/-- A rank function certifying that the scenario C registry is acyclic. -/
def rankC : String → Nat := fun s => if s = "Lookup" then 1 else 0

/-- A shared-dependency scenario: providers `fa(c: C) -> A`, `fb(c2: C) -> B`,
`fc() -> C`, and a target needing both `A` and `B`, so `C` is requested twice. -/
def fProvA : FuncSig := ⟨11, [⟨"c", .ty "C"⟩]⟩

/-- Signature of `fb(c2: C) -> B` of the shared-dependency scenario. -/
def fProvB : FuncSig := ⟨12, [⟨"c2", .ty "C"⟩]⟩

/-- Signature of `fc() -> C` of the shared-dependency scenario. -/
def fProvC : FuncSig := ⟨13, []⟩

/-- The target `ft(a: A, b: B)` of the shared-dependency scenario. -/
def fTargetB : FuncSig := ⟨14, [⟨"a", .ty "A"⟩, ⟨"b", .ty "B"⟩]⟩

/-- The registry of the shared-dependency scenario. -/
def ctxB : Ctx := ⟨[("A", fProvA), ("B", fProvB), ("C", fProvC)], [], []⟩

/-- The plan the shared-dependency scenario builds. -/
def planB : InjectedFunction :=
  match inject ctxB 10 fTargetB with
  | .ok p => p
  | .error _ => ⟨[], []⟩

/-- A rank function certifying that the shared-dependency registry is acyclic. -/
def rankB : String → Nat := fun s => if s = "C" then 0 else 1

/-- The step of `fProvA` in the shared-dependency plan. -/
def stepBA : Step := create_step ctxB (parameterized_types ctxB) fProvA (some "A") (some "a")

/-- The step of `fProvB` in the shared-dependency plan. -/
def stepBB : Step := create_step ctxB (parameterized_types ctxB) fProvB (some "B") (some "b")

/-- Witness for C2: in the shared-dependency plan, `fProvA`'s and `fProvB`'s
steps both consume type `C`; exactly one step outputs `C`'s key and every
consumer binds that key. -/
theorem C2_deduplication_witness :
    (planB.steps.filter (fun s => s.output_key == strLower "C")).length = 1 ∧
    (∀ S ∈ planB.steps, ∀ a, (a, Ann.ty "C") ∈ S.input_types →
      (a, strLower "C") ∈ S.input_keys) :=
  C2_deduplication ctxB 10 fTargetB planB rankB (by decide) (by decide) rfl "C"
    (by decide) (by decide) stepBA stepBB (by decide) (by decide) (by decide)
    "c" "c2" (by decide) (by decide)

/-- The final (target) step of the scenario C plan. -/
def stepCT : Step := create_step ctxC (parameterized_types ctxC) fMakeLookups none none

/-- Witness for C3 at scenario C: the two requests for `Lookup` under names
`a` and `b` are produced by two distinct steps keyed `lookup:a`, `lookup:b`. -/
theorem C3_name_parameterization_witness :
    ∃ T1, T1 ∈ planC.steps ∧ T1.output_key = strLower "Lookup" ++ ":" ++ "a" ∧
    ∃ T2, T2 ∈ planC.steps ∧ T2.output_key = strLower "Lookup" ++ ":" ++ "b" ∧ T1 ≠ T2 :=
  ((C3_name_parameterization ctxC 10 fMakeLookups planC rankC (by decide) (by decide)
      rfl "Lookup").1 "a" "b" stepCT stepCT (by decide) (by decide) (by decide)
      (by decide) (by decide) (by decide)).2.2.2

/-- Does a WSGI environ key start with `HTTP_`? -/
def startsHTTP : List Char → Bool
  | 'H' :: 'T' :: 'T' :: 'P' :: '_' :: _ => true
  | _ => false

/-- Computation `key[5:].replace('_', '-').lower()` of `get_headers`. -/
def headerName (k : String) : String :=
  strLower ⟨(k.data.drop 5).map (fun ch => if ch = '_' then '-' else ch)⟩

/-- Computation `key.replace('_', '-').lower()` of `get_headers`' content-type branch. -/
def contentName (k : String) : String :=
  strLower ⟨k.data.map (fun ch => if ch = '_' then '-' else ch)⟩

/-- The header dictionary `get_headers` builds from an environ dict. -/
def headersOf : List (String × Val) → List (String × Val)
  | [] => []
  | (k, v) :: rest =>
    if startsHTTP k.data then (headerName k, v) :: headersOf rest
    else if k = "CONTENT_TYPE" ∨ k = "CONTENT_LENGTH" then (contentName k, v) :: headersOf rest
    else headersOf rest

/-- The runtime behaviour of scenario A's functions: `get_method` reads
`environ['METHOD']`, `get_headers` builds the header dict, and the target
echoes both into a result dict. -/
def implA : Impl := fun fid kws =>
  match fid with
  | 1 =>
    match List.lookup "environ" kws with
    | some (.vdict d) => List.lookup "METHOD" d
    | _ => none
  | 2 =>
    match List.lookup "environ" kws with
    | some (.vdict d) => some (.vdict (headersOf d))
    | _ => none
  | 3 =>
    match List.lookup "method" kws, List.lookup "headers" kws with
    | some m, some hs => some (.vdict [("method", m), ("headers", hs)])
    | _, _ => none
  | _ => none

/-- C7: scenario A builds the plan `[get_method, get_headers, target]` and
running it on `environ = {METHOD: GET, HTTP_HOST: 127.0.0.1}` returns
`{method: GET, headers: {host: 127.0.0.1}}`. -/
theorem C7_round_trip_scenario_A :
    inject ctxA 10 fEcho = .ok planA ∧
    planA.steps.map (fun s => s.func.fid) = [1, 2, 3] ∧
    (callFn implA planA (some [("environ",
        Val.vdict [("METHOD", .vstr "GET"), ("HTTP_HOST", .vstr "127.0.0.1")])])).2 =
      .ok (Val.vdict [("method", .vstr "GET"),
        ("headers", .vdict [("host", .vstr "127.0.0.1")])]) :=
  ⟨rfl, rfl, rfl⟩

/-- The `get_lookup` step for the request named `a` in the scenario C plan. -/
def stepCA : Step := create_step ctxC (parameterized_types ctxC) fGetLookup (some "Lookup") (some "a")

/-- Witness for C8 at scenario C: `get_lookup`'s `name: ParamName` parameter
is recorded as a param-name binding and the provider is invoked with
`name` bound to the string `"a"`. -/
theorem C8_param_name_binding_witness :
    ∃ m pnv, stepCA.param_names = some m ∧ ("name", pnv) ∈ m ∧
      ("name", optNameVal pnv) ∈ [("lookups", Val.vnone), ("name", Val.vstr "a")] :=
  (C8_param_name_binding ctxC 10 fMakeLookups planC rfl (by decide) (by decide)).2.2
    stepCA (by decide) [("lookups", Val.vnone)]
    [("lookups", Val.vnone), ("name", Val.vstr "a")] rfl "name" (by decide)

/-- Witness for C10 at scenario A: passing `bogus` fails before any step. -/
theorem C10_unknown_external_name_witness :
    ∃ n, n ∉ ctxA.required_state.map Prod.fst ∧
      callFn implA planA (some [("bogus", Val.vnone)]) =
        ([], .error (.unknownStateName n)) :=
  C10_unknown_external_name ctxA 10 fEcho planA rfl implA
    [("bogus", Val.vnone)] "bogus" Val.vnone (by simp) (by decide)

/-- A provider behaviour that always succeeds (returns `None`). -/
def implTotal : Impl := fun _ _ => some Val.vnone

/-- The `get_method` step of the scenario A plan. -/
def stepA1 : Step :=
  create_step ctxA (parameterized_types ctxA) fGetMethod (some "Method") (some "method")

/-- Witness for C9 at scenario A: omitting `environ` from the run-time state
makes the run fail with `MissingState` for `environ`'s key. -/
theorem C9_missing_state_witness :
    ∃ tr, callFn implTotal planA (some []) =
      (tr, .error (.missingState (get_key (some "Environ") none []))) :=
  C9_missing_state ctxA 10 fEcho planA rfl (by decide) (by decide) (by decide)
    "environ" "Environ" (by decide) implTotal (fun _ _ => rfl) []
    (by simp) (by decide) stepA1 (by decide) "environ" (by decide)

/-- C5: key derivation is a pure function of its arguments satisfying:
the `none` class yields the empty key; a name-parameterized class with a
present logical name yields the lowercased class name, a colon, and the
name; otherwise the key is the lowercased class name alone. -/
theorem C5_get_key_contract (t s : String) (n : Option String) (P : List String) :
    get_key none n P = "" ∧
    (t ∈ P → get_key (some t) (some s) P = strLower t ++ ":" ++ s) ∧
    (t ∉ P → get_key (some t) n P = strLower t) ∧
    get_key (some t) none P = strLower t := by
  refine ⟨rfl, ?_, ?_, rfl⟩
  · intro hm
    simp [get_key, hm]
  · intro hm
    cases n with
    | none => rfl
    | some s' => simp [get_key, hm]

/-- Witness for C5 at concrete keys: the parameterized key of `Lookup` under
name `a`, and the plain key of `Method`. -/
theorem C5_get_key_contract_witness :
    get_key none none ["Lookup"] = "" ∧
    get_key (some "Lookup") (some "a") ["Lookup"] = "lookup:a" ∧
    get_key (some "Method") (some "m") ["Lookup"] = "method" :=
  ⟨(C5_get_key_contract "Lookup" "a" none ["Lookup"]).1,
   ((C5_get_key_contract "Lookup" "a" none ["Lookup"]).2.1 (by decide)).trans (by decide),
   ((C5_get_key_contract "Method" "m" (some "m") ["Lookup"]).2.2.1 (by decide)).trans (by decide)⟩

end Dependency
